import Mathlib

/-!
Shallow embedding of the ExpenseSplitter core (src/expense_splitter.js).

Numbers are modelled by the rationals: the JavaScript source computes with
IEEE doubles, but every claim under verification speaks about exact
arithmetic, so shares, balances and settlement amounts are embedded as
exact values in the field of rationals.

JavaScript objects used as string-keyed maps (balances, perItemSplits) are
embedded as association lists in insertion order: updating an existing key
rewrites its value in place, a fresh key is appended at the end, which is
exactly the enumeration order of Object.entries on such objects.

Spreadsheet cells are embedded as strings; a cell read outside the row
(JavaScript index -1 giving undefined) is the none case of an Option.
-/

namespace ExpenseSplitter

abbrev Name := String

/-!
Character-level models of the JavaScript string primitives the source uses
(trim, toLowerCase, toUpperCase of the first character, split on a one-character
separator, join). They are written on the character list underlying a string,
restricted to ASCII, which covers every string the program manipulates in the
claims under verification.
-/

/-- ASCII fragment of the whitespace class that String.prototype.trim strips. -/
def isJsWhitespace (c : Char) : Bool :=
  c.toNat = 32 || (9 ≤ c.toNat && c.toNat ≤ 13)

def trimChars (cs : List Char) : List Char :=
  ((cs.dropWhile isJsWhitespace).reverse.dropWhile isJsWhitespace).reverse

/-- Model of String.prototype.trim. -/
def jsTrim (s : String) : String :=
  ⟨trimChars s.data⟩

/-- ASCII lower-casing of one character. -/
def lowerChar (c : Char) : Char :=
  if 65 ≤ c.toNat && c.toNat ≤ 90 then Char.ofNat (c.toNat + 32) else c

/-- Model of String.prototype.toLowerCase on ASCII data. -/
def jsToLower (s : String) : String :=
  ⟨s.data.map lowerChar⟩

/-- ASCII upper-casing of one character. -/
def upperChar (c : Char) : Char :=
  if 97 ≤ c.toNat && c.toNat ≤ 122 then Char.ofNat (c.toNat - 32) else c

/-- Split on a one-character separator, accumulator in reverse. -/
def splitCharsAux (sep : Char) : List Char → List Char → List (List Char)
  | [], acc => [acc.reverse]
  | c :: rest, acc =>
    if c = sep then acc.reverse :: splitCharsAux sep rest []
    else splitCharsAux sep rest (c :: acc)

/-- Model of String.prototype.split with a one-character separator: the empty
string yields the one-element list of the empty string, as in JavaScript. -/
def jsSplit (s : String) (sep : Char) : List String :=
  (splitCharsAux sep s.data []).map (fun cs => ⟨cs⟩)

/-- Model of Array.prototype.join. -/
def joinWith (sep : String) : List String → String
  | [] => ""
  | [s] => s
  | s :: rest => s ++ sep ++ joinWith sep rest


/-- Association list with JS object semantics: lookup of the first binding of a key. -/
def alGet {β : Type} (m : List (Name × β)) (k : Name) : Option β :=
  (m.find? (fun e => e.1 == k)).map (fun e => e.2)

/-- Association list update with JS object semantics: an existing key keeps its
position and gets the new value, a fresh key is appended at the end. -/
def alSet {β : Type} : List (Name × β) → Name → β → List (Name × β)
  | [], k, v => [(k, v)]
  | e :: rest, k, v => if e.1 == k then (k, v) :: rest else e :: alSet rest k v

/-- Read-modify-write of a numeric entry, as in `balances[name] = (balances[name] || 0) + d`
and the hasOwnProperty-guarded updates of processExpenses. -/
def alAdd (m : List (Name × ℚ)) (k : Name) (d : ℚ) : List (Name × ℚ) :=
  alSet m k (((alGet m k).getD 0) + d)

/-- Sum of all values of the map, `Σ balances.values()`. -/
def alSum (m : List (Name × ℚ)) : ℚ :=
  (m.map (fun e => e.2)).sum

/-- Numeric value of a run of decimal digit characters. -/
def digitsToNat (ds : List Char) : ℕ :=
  ds.foldl (fun a c => 10 * a + (c.toNat - 48)) 0

/-- Model of the JavaScript parseFloat builtin restricted to plain decimal
literals (optional sign, integer part, optional fractional part, trailing
garbage ignored); exponent notation and Infinity, which no input of this
program uses, are not modelled. Returns none where parseFloat returns NaN. -/
def jsParseFloat (s : String) : Option ℚ :=
  let cs := trimChars s.data
  let signed : ℚ × List Char :=
    match cs with
    | '-' :: r => (-1, r)
    | '+' :: r => (1, r)
    | _ => (1, cs)
  let sign := signed.1
  let cs1 := signed.2
  let ip := cs1.takeWhile Char.isDigit
  let rest := cs1.dropWhile Char.isDigit
  match rest with
  | '.' :: r2 =>
    let fp := r2.takeWhile Char.isDigit
    if ip.isEmpty && fp.isEmpty then none
    else some (sign * ((digitsToNat ip : ℚ) + (digitsToNat fp : ℚ) / (10 : ℚ) ^ fp.length))
  | _ => if ip.isEmpty then none else some (sign * (digitsToNat ip : ℚ))

/-- Model of Number.prototype.toFixed(2) read back with parseFloat, as in
`parseFloat(balance.toFixed(2))`: rounding to two decimal places. -/
def round2 (q : ℚ) : ℚ :=
  ((round (q * 100) : ℤ) : ℚ) / 100

/-- The capitalize helper of the source,
`str.charAt(0).toUpperCase() + str.slice(1)`. -/
def capitalize (str : String) : String :=
  match str.data with
  | [] => ""
  | c :: rest => ⟨upperChar c :: rest⟩

/-- formatGroup: renders a canonical comma-joined group key as a display list. -/
def formatGroup (groupKey : String) : String :=
  joinWith ", " ((jsSplit groupKey ',').map capitalize)

/-- One parsed participant of an expense: a name and a positive weight. -/
structure Participant where
  name : Name
  weight : ℚ
deriving Repr, DecidableEq

/-- Deduplication of participants by name keeping the first weight found,
as in the unique/seen loop of getParticipants. -/
def dedupByNameAux : List Participant → List Name → List Participant
  | [], _ => []
  | p :: rest, seen =>
    if seen.contains p.name then dedupByNameAux rest seen
    else p :: dedupByNameAux rest (p.name :: seen)

def dedupByName (ps : List Participant) : List Participant :=
  dedupByNameAux ps []

/-- One entry of the split-between list: `name` or `name:weight`, both sides
trimmed; a missing, non-numeric or non-positive weight defaults to 1. -/
def parseEntry (entry : String) : Participant :=
  let parts := (jsSplit entry ':').map jsTrim
  let name := parts.headD ""
  let w : Option ℚ :=
    match parts[1]? with
    | none => none
    | some ws => jsParseFloat ws
  let weight : ℚ :=
    match w with
    | none => 1
    | some v => if v ≤ 0 then 1 else v
  ⟨name, weight⟩

/-- getParticipants of the source: the wildcard token gives every known member
with weight 1; otherwise the comma-separated entries are trimmed, lower-cased,
blanks dropped, parsed as name:weight pairs and deduplicated by name. -/
def getParticipants (splitBetweenRaw : String) (allMembers : List Name) : List Participant :=
  if jsTrim splitBetweenRaw == "*" then
    allMembers.map (fun m => ⟨m, 1⟩)
  else
    let entries :=
      ((jsSplit splitBetweenRaw ',').map (fun n => jsToLower (jsTrim n))).filter
        (fun s => s != "")
    dedupByName (entries.map parseEntry)

/-- Column indexes into an expense row, JavaScript indexOf convention:
-1 when the header is absent. -/
structure ExpenseCols where
  expensesStartCol : Int
  paidByColIndex : Int
  amountColIndex : Int
  splitBetweenColIndex : Int
deriving Repr

/-- JavaScript Array.prototype.indexOf on the header row. -/
def jsIndexOf (l : List String) (s : String) : Int :=
  match l.findIdx? (fun h => h == s) with
  | some i => (i : Int)
  | none => -1

/-- getColumnIndexesExpenses of the source. -/
def getColumnIndexesExpenses (headers : List String) : ExpenseCols :=
  ⟨jsIndexOf headers "item", jsIndexOf headers "paid by",
   jsIndexOf headers "amount", jsIndexOf headers "split between"⟩

/-- Cell access `row[idx]`: undefined (none) outside the row, in particular
at index -1 when a required header was not found. -/
def getCell (row : List String) (idx : Int) : Option String :=
  if idx < 0 then none else row[idx.toNat]?

/-- JavaScript truthiness of a cell: undefined and the empty string are falsy. -/
def cellTruthy (c : Option String) : Bool :=
  match c with
  | none => false
  | some s => s != ""

/-- The two accumulators mutated by processExpenses: member balances and the
per-item split matrix. -/
structure RunState where
  balances : List (Name × ℚ)
  perItemSplits : List (String × List (Name × ℚ))
deriving Repr, DecidableEq

/-- Body of the participant loop of processExpenses: subtract the weighted
share from the balance and the per-item entry of the participant. -/
def applyParticipant (amount totalWeight : ℚ) (item : String) (st : RunState)
    (p : Participant) : RunState :=
  let share := amount * (p.weight / totalWeight)
  { balances := alAdd st.balances p.name (-share)
    perItemSplits :=
      alSet st.perItemSplits item
        (alAdd ((alGet st.perItemSplits item).getD []) p.name (-share)) }

/-- The parsed amount of a row, `parseFloat(data[i][amountColIndex])`:
none models NaN (missing cell or unparseable string). -/
def rowAmount (cols : ExpenseCols) (row : List String) : Option ℚ :=
  match getCell row cols.amountColIndex with
  | none => none
  | some s => jsParseFloat s

/-- The item cell of a row as the string key of perItemSplits (the row is
only processed when the cell is truthy, hence non-empty). -/
def rowItemKey (cols : ExpenseCols) (row : List String) : String :=
  (getCell row cols.expensesStartCol).getD ""

/-- The canonical payer name of a row, `paidByRaw.trim().toLowerCase()`. -/
def rowPaidBy (cols : ExpenseCols) (row : List String) : Name :=
  jsToLower (jsTrim ((getCell row cols.paidByColIndex).getD ""))

/-- The split-between cell of a row. -/
def rowSplitRaw (cols : ExpenseCols) (row : List String) : String :=
  (getCell row cols.splitBetweenColIndex).getD ""

/-- One iteration of the row loop of processExpenses. A row with a falsy item,
a falsy paid-by cell or a NaN amount is skipped, as is a row whose resolved
participant list is empty. Note that a missing split-between cell is modelled
as the empty string (which resolves to no participants); in the source an
undefined split-between cell only arises when that header is absent, a path
no processed row of the verified claims reaches before another guard fires. -/
def processRow (cols : ExpenseCols) (allMembers : List Name) (st : RunState)
    (row : List String) : RunState :=
  match rowAmount cols row with
  | none => st
  | some amount =>
    if !cellTruthy (getCell row cols.expensesStartCol) ||
        !cellTruthy (getCell row cols.paidByColIndex) then st
    else
      let itemKey := rowItemKey cols row
      let paidBy := rowPaidBy cols row
      let participants := getParticipants (rowSplitRaw cols row) allMembers
      if participants.length == 0 then st
      else
        let totalWeight := (participants.map Participant.weight).sum
        let st1 := participants.foldl (applyParticipant amount totalWeight itemKey) st
        { balances := alAdd st1.balances paidBy amount
          perItemSplits :=
            alSet st1.perItemSplits itemKey
              (alAdd ((alGet st1.perItemSplits itemKey).getD []) paidBy amount) }

/-- processExpenses of the source: fold the row loop over every data row
(index 1 onward, row 0 being the header row). -/
def processExpenses (data : List (List String)) (cols : ExpenseCols)
    (allMembers : List Name) (st : RunState) : RunState :=
  (data.drop 1).foldl (processRow cols allMembers) st

/-- The balances object right before processExpenses:
every known member bound to 0, in member order. -/
def initBalances (allMembers : List Name) : List (Name × ℚ) :=
  allMembers.foldl (fun b n => alSet b n 0) []

/-- The member list of the Members sheet: non-empty raw cells, trimmed and
lower-cased (in this order: the emptiness filter precedes the trim), then
deduplicated in first-occurrence order as a Set would. -/
def buildAllMembers (membersData : List String) : List Name :=
  ((membersData.filter (fun s => s != "")).map (fun name => jsToLower (jsTrim name))).foldl
    (fun acc n => if acc.contains n then acc else acc ++ [n]) []

/-- A registered subgroup table: canonical key to member list, in
registration order (JS Map insertion order). -/
abbrev SubgroupMap := List (String × List Name)

/-- assignMembersToSubgroups of the source: every member is looked up in the
registered groups in registration order; the first group containing it wins,
otherwise a singleton self-group keyed by the member is registered. Returns
the final subgroup map and the nameToGroupKey assignment in member order.
The nameToGroup map of the source, which no later stage reads, is omitted. -/
def assignMembersToSubgroups : List Name → SubgroupMap → SubgroupMap × List (Name × String)
  | [], subgroupMap => (subgroupMap, [])
  | m :: rest, subgroupMap =>
    match subgroupMap.find? (fun kg => kg.2.contains m) with
    | some kg =>
      let r := assignMembersToSubgroups rest subgroupMap
      (r.1, (m, kg.1) :: r.2)
    | none =>
      let r := assignMembersToSubgroups rest (alSet subgroupMap m [m])
      (r.1, (m, m) :: r.2)

/-- A creditor or debtor entry of the settlement loop: a key (member name or
group key) and its remaining positive amount. -/
structure Party where
  name : String
  amount : ℚ
deriving Repr, DecidableEq

/-- Insertion step of a stable descending sort by amount: x is placed before
the first element not exceeding it, hence before every tie (which entered the
list later in the original order). -/
def insertDesc (x : Party) : List Party → List Party
  | [] => [x]
  | y :: ys => if y.amount ≤ x.amount then x :: y :: ys else y :: insertDesc x ys

/-- The in-place descending sort by amount of the settlement loop,
`(a, b) => b.amount - a.amount`. ECMAScript sorts are stable, and a stable
descending sort of a list is unique, so the insertion sort used here is
observably the sort of the source. -/
def sortByAmountDesc : List Party → List Party
  | [] => []
  | x :: xs => insertDesc x (sortByAmountDesc xs)

/-- A settling transfer (from, to, amount): the source emits it as the row
[from, to, amount.toFixed(2)]; the third component keeps the exact amount
whose two-decimal rendering fills the cell. -/
abbrev Transaction := String × String × ℚ

/-- The shared while loop of generateMinimalMemberTransactions and
generateMinimalSubgroupTransactions: while both lists are non-empty, re-sort
both descending by amount, pair the head creditor with the head debtor,
transfer the minimum of the two remainders, and drop a party whose remainder
fell below 0.01. fmt renders a key into the emitted row (capitalize at member
level, formatGroup at subgroup level). The fuel argument bounds the iteration
count; every iteration drops at least one party, so the combined list length
is always enough fuel. -/
def settleLoop (fmt : String → String) : ℕ → List Party → List Party → List Transaction
  | 0, _, _ => []
  | fuel + 1, creditors, debtors =>
    if creditors.isEmpty || debtors.isEmpty then []
    else
      match sortByAmountDesc creditors, sortByAmountDesc debtors with
      | c :: crest, d :: drest =>
        let amount := min d.amount c.amount
        let newCreditors :=
          if c.amount - amount < 1/100 then crest else ⟨c.name, c.amount - amount⟩ :: crest
        let newDebtors :=
          if d.amount - amount < 1/100 then drest else ⟨d.name, d.amount - amount⟩ :: drest
        (fmt d.name, fmt c.name, amount) :: settleLoop fmt fuel newCreditors newDebtors
      | _, _ => []

/-- The creditor list of the settlement entry: entries whose balance rounded
to two decimals exceeds 0.01, with that rounded value as starting amount. -/
def creditorsOf (balances : List (Name × ℚ)) : List Party :=
  balances.filterMap (fun e =>
    let val := round2 e.2
    if val > 1/100 then some ⟨e.1, val⟩ else none)

/-- The debtor list of the settlement entry: entries whose balance rounded to
two decimals is below -0.01, negated into a positive owed amount. -/
def debtorsOf (balances : List (Name × ℚ)) : List Party :=
  balances.filterMap (fun e =>
    let val := round2 e.2
    if val < -(1/100) then some ⟨e.1, -val⟩ else none)

/-- generateMinimalMemberTransactions of the source. -/
def generateMinimalMemberTransactions (balances : List (Name × ℚ)) : List Transaction :=
  let creditors := creditorsOf balances
  let debtors := debtorsOf balances
  settleLoop capitalize (creditors.length + debtors.length) creditors debtors

/-- generateMinimalSubgroupTransactions of the source: identical loop over
group balances, rendered through formatGroup. -/
def generateMinimalSubgroupTransactions (groupBalances : List (Name × ℚ)) : List Transaction :=
  let creditors := creditorsOf groupBalances
  let debtors := debtorsOf groupBalances
  settleLoop formatGroup (creditors.length + debtors.length) creditors debtors

/-- Everything the run writes back at member granularity. -/
structure CoreOutput where
  allMembers : List Name
  balances : List (Name × ℚ)
  perItemSplits : List (String × List (Name × ℚ))
  memberTransactions : List Transaction
deriving Repr, DecidableEq

instance {ε α : Type} [DecidableEq ε] [DecidableEq α] : DecidableEq (Except ε α) := fun a b =>
  match a, b with
  | .ok x, .ok y => if h : x = y then .isTrue (by rw [h]) else .isFalse (by simp [h])
  | .error x, .error y => if h : x = y then .isTrue (by rw [h]) else .isFalse (by simp [h])
  | .ok _, .error _ => .isFalse (by simp)
  | .error _, .ok _ => .isFalse (by simp)

/-- The core pipeline of calculateExpensesWithSubgroups after the three
sheets have been fetched: resolve the expense columns from the header row
(with no missing-column check), build the member set, process every expense
row and derive the member-level output tables. The sheet-presence and
Members-header checks of the source, which do throw, happen before this
point and are outside the four expense fields; from here on the source has
no failure exit, which the Except result type makes observable. -/
def runCore (membersData : List String) (expensesData : List (List String)) :
    Except String CoreOutput :=
  let headers := (expensesData.headD []).map (fun h => jsTrim (jsToLower h))
  let cols := getColumnIndexesExpenses headers
  let allMembers := buildAllMembers membersData
  let st := processExpenses expensesData cols allMembers ⟨initBalances allMembers, []⟩
  Except.ok ⟨allMembers, st.balances, st.perItemSplits,
    generateMinimalMemberTransactions st.balances⟩

/-!
Lemmas about the association-list map operations.
-/

theorem alGet_nil {β : Type} (k : Name) : alGet ([] : List (Name × β)) k = none := rfl

theorem alGet_cons {β : Type} (e : Name × β) (rest : List (Name × β)) (k : Name) :
    alGet (e :: rest) k = if e.1 = k then some e.2 else alGet rest k := by
  by_cases h : e.1 = k
  · simp [alGet, List.find?, h]
  · have hb : (e.1 == k) = false := beq_eq_false_iff_ne.mpr h
    simp [alGet, List.find?, hb, h]

theorem alSet_cons_eq {β : Type} (e : Name × β) (rest : List (Name × β)) (v : β)
    (h : e.1 = k) : alSet (e :: rest) k v = (k, v) :: rest := by
  have hb : (e.1 == k) = true := beq_iff_eq.mpr h
  simp [alSet, hb]

theorem alSet_cons_ne {β : Type} (e : Name × β) (rest : List (Name × β)) (v : β)
    (h : ¬ e.1 = k) : alSet (e :: rest) k v = e :: alSet rest k v := by
  have hb : (e.1 == k) = false := beq_eq_false_iff_ne.mpr h
  simp [alSet, hb]

theorem alAdd_cons_eq (e : Name × ℚ) (rest : List (Name × ℚ)) (k : Name) (d : ℚ)
    (h : e.1 = k) : alAdd (e :: rest) k d = (k, e.2 + d) :: rest := by
  rw [alAdd, alSet_cons_eq e rest _ h, alGet_cons, if_pos h]
  simp

theorem alAdd_cons_ne (e : Name × ℚ) (rest : List (Name × ℚ)) (k : Name) (d : ℚ)
    (h : ¬ e.1 = k) : alAdd (e :: rest) k d = e :: alAdd rest k d := by
  rw [alAdd, alSet_cons_ne e rest _ h, alGet_cons, if_neg h, alAdd]

theorem alSum_nil : alSum ([] : List (Name × ℚ)) = 0 := rfl

theorem alSum_cons (e : Name × ℚ) (rest : List (Name × ℚ)) :
    alSum (e :: rest) = e.2 + alSum rest := by
  simp [alSum]

theorem alSum_alAdd (m : List (Name × ℚ)) (k : Name) (d : ℚ) :
    alSum (alAdd m k d) = alSum m + d := by
  induction m with
  | nil => simp [alAdd, alGet, alSet, alSum]
  | cons e rest ih =>
    by_cases h : e.1 = k
    · rw [alAdd_cons_eq e rest k d h, alSum_cons, alSum_cons]
      ring
    · rw [alAdd_cons_ne e rest k d h, alSum_cons, alSum_cons, ih]
      ring

theorem alGet_alAdd_self (m : List (Name × ℚ)) (k : Name) (d : ℚ) :
    alGet (alAdd m k d) k = some ((alGet m k).getD 0 + d) := by
  induction m with
  | nil => simp [alAdd, alGet, alSet]
  | cons e rest ih =>
    by_cases h : e.1 = k
    · rw [alAdd_cons_eq e rest k d h, alGet_cons, if_pos rfl, alGet_cons, if_pos h]
      simp
    · rw [alAdd_cons_ne e rest k d h, alGet_cons, if_neg h, alGet_cons, if_neg h, ih]

theorem alGet_alAdd_ne (m : List (Name × ℚ)) (k n : Name) (d : ℚ) (h : ¬ n = k) :
    alGet (alAdd m k d) n = alGet m n := by
  induction m with
  | nil =>
    have hb : (k == n) = false := beq_eq_false_iff_ne.mpr (fun hc => h hc.symm)
    simp [alAdd, alGet, alSet, List.find?, hb]
  | cons e rest ih =>
    by_cases he : e.1 = k
    · rw [alAdd_cons_eq e rest k d he, alGet_cons, alGet_cons]
      have : ¬ (k = n) := fun hc => h hc.symm
      rw [if_neg this, if_neg (he ▸ this)]
    · rw [alAdd_cons_ne e rest k d he, alGet_cons, alGet_cons, ih]


/-!
Weight positivity and the share-sum identity.
-/

theorem parseEntry_weight_pos (entry : String) : 0 < (parseEntry entry).weight := by
  unfold parseEntry
  cases h : ((jsSplit entry ':').map jsTrim)[1]? with
  | none => simp [h]
  | some ws =>
    cases hw : jsParseFloat ws with
    | none => simp [h, hw]
    | some v =>
      simp only [h, hw]
      by_cases hv : v ≤ 0
      · simp [hv]
      · simp [hv]
        exact lt_of_not_le hv

theorem mem_dedupByNameAux (p : Participant) :
    ∀ (ps : List Participant) (seen : List Name), p ∈ dedupByNameAux ps seen → p ∈ ps := by
  intro ps
  induction ps with
  | nil => intro seen h; simp [dedupByNameAux] at h
  | cons q rest ih =>
    intro seen h
    rw [dedupByNameAux] at h
    by_cases hs : seen.contains q.name
    · rw [if_pos hs] at h
      exact List.mem_cons_of_mem q (ih seen h)
    · rw [if_neg hs] at h
      rcases List.mem_cons.mp h with h1 | h2
      · exact h1 ▸ List.mem_cons_self q rest
      · exact List.mem_cons_of_mem q (ih _ h2)

theorem getParticipants_weight_pos (s : String) (ms : List Name) (p : Participant)
    (hp : p ∈ getParticipants s ms) : 0 < p.weight := by
  unfold getParticipants at hp
  by_cases hw : (jsTrim s == "*") = true
  · rw [if_pos hw] at hp
    rcases List.mem_map.mp hp with ⟨m, _, hmp⟩
    rw [← hmp]
    norm_num
  · rw [if_neg hw] at hp
    have hp2 := mem_dedupByNameAux p _ [] hp
    rcases List.mem_map.mp hp2 with ⟨entry, _, hep⟩
    rw [← hep]
    exact parseEntry_weight_pos entry

theorem sum_shares (ps : List Participant) (a : ℚ) (hne : ps ≠ [])
    (hpos : ∀ p ∈ ps, 0 < p.weight) :
    (ps.map (fun p => a * (p.weight / (ps.map Participant.weight).sum))).sum = a := by
  set W := (ps.map Participant.weight).sum with hWdef
  have hW : 0 < W := by
    apply List.sum_pos
    · intro x hx
      rcases List.mem_map.mp hx with ⟨p, hp, hxp⟩
      exact hxp ▸ hpos p hp
    · simp [hne]
  have heq : (fun p : Participant => a * (p.weight / W)) =
      fun p : Participant => (a / W) * p.weight := by
    funext p
    field_simp
  rw [heq, List.sum_map_mul_left]
  rw [← hWdef]
  field_simp

/-!
Projections of the participant fold, and conservation of the balance sum.
-/

theorem foldl_applyParticipant_balances (ps : List Participant) (a W : ℚ) (item : String)
    (st : RunState) :
    (ps.foldl (applyParticipant a W item) st).balances =
      ps.foldl (fun b p => alAdd b p.name (-(a * (p.weight / W)))) st.balances := by
  induction ps generalizing st with
  | nil => rfl
  | cons p rest ih => rw [List.foldl_cons, List.foldl_cons, ih]; rfl

theorem foldl_applyParticipant_splits (ps : List Participant) (a W : ℚ) (item : String)
    (st : RunState) :
    (ps.foldl (applyParticipant a W item) st).perItemSplits =
      ps.foldl (fun sp p =>
        alSet sp item (alAdd ((alGet sp item).getD []) p.name (-(a * (p.weight / W)))))
        st.perItemSplits := by
  induction ps generalizing st with
  | nil => rfl
  | cons p rest ih => rw [List.foldl_cons, List.foldl_cons, ih]; rfl

theorem alSum_foldl_alAdd (ps : List Participant) (f : Participant → ℚ)
    (b0 : List (Name × ℚ)) :
    alSum (ps.foldl (fun b p => alAdd b p.name (f p)) b0) = alSum b0 + (ps.map f).sum := by
  induction ps generalizing b0 with
  | nil => simp
  | cons p rest ih =>
    rw [List.foldl_cons, ih, alSum_alAdd]
    simp
    ring

theorem processRow_alSum (cols : ExpenseCols) (ms : List Name) (st : RunState)
    (row : List String) :
    alSum (processRow cols ms st row).balances = alSum st.balances := by
  unfold processRow
  cases hamt : rowAmount cols row with
  | none => rfl
  | some a =>
    simp only []
    by_cases hguard : (!cellTruthy (getCell row cols.expensesStartCol) ||
        !cellTruthy (getCell row cols.paidByColIndex)) = true
    · rw [if_pos hguard]
    · rw [if_neg hguard]
      set ps := getParticipants (rowSplitRaw cols row) ms with hps
      by_cases hlen : (ps.length == 0) = true
      · rw [if_pos hlen]
      · rw [if_neg hlen]
        simp only [alSum_alAdd, foldl_applyParticipant_balances, alSum_foldl_alAdd]
        have hne : ps ≠ [] := by
          intro hc
          rw [hc] at hlen
          simp at hlen
        have hpos : ∀ p ∈ ps, 0 < p.weight := fun p hp =>
          getParticipants_weight_pos _ ms p (hps ▸ hp)
        have hfun : (fun p : Participant =>
            -(a * (p.weight / (ps.map Participant.weight).sum))) =
            (fun p : Participant => (-a) * (p.weight / (ps.map Participant.weight).sum)) := by
          funext p
          ring
        rw [hfun, sum_shares ps (-a) hne hpos]
        ring


theorem mem_alSet {β : Type} (e : Name × β) :
    ∀ (m : List (Name × β)) (k : Name) (v : β), e ∈ alSet m k v → e ∈ m ∨ e = (k, v) := by
  intro m
  induction m with
  | nil => intro k v h; simp [alSet] at h; right; exact h
  | cons f rest ih =>
    intro k v h
    rw [alSet] at h
    by_cases hf : (f.1 == k) = true
    · rw [if_pos hf] at h
      rcases List.mem_cons.mp h with h1 | h2
      · right; exact h1
      · left; exact List.mem_cons_of_mem f h2
    · rw [if_neg hf] at h
      rcases List.mem_cons.mp h with h1 | h2
      · left; exact h1 ▸ List.mem_cons_self f rest
      · rcases ih k v h2 with h3 | h4
        · left; exact List.mem_cons_of_mem f h3
        · right; exact h4

theorem initBalances_zeros (ms : List Name) : ∀ e ∈ initBalances ms, e.2 = 0 := by
  unfold initBalances
  suffices h : ∀ (b : List (Name × ℚ)), (∀ e ∈ b, e.2 = 0) →
      ∀ e ∈ ms.foldl (fun b n => alSet b n 0) b, e.2 = 0 by
    exact h [] (by simp)
  induction ms with
  | nil => intro b hb; exact hb
  | cons n rest ih =>
    intro b hb
    rw [List.foldl_cons]
    apply ih
    intro e he
    rcases mem_alSet e b n 0 he with h1 | h2
    · exact hb e h1
    · rw [h2]

theorem alSum_initBalances (ms : List Name) : alSum (initBalances ms) = 0 := by
  have hz := initBalances_zeros ms
  unfold alSum
  apply List.sum_eq_zero
  intro x hx
  rcases List.mem_map.mp hx with ⟨e, he, hex⟩
  rw [← hex]
  exact hz e he

theorem processExpenses_alSum (data : List (List String)) (cols : ExpenseCols)
    (ms : List Name) (st : RunState) :
    alSum (processExpenses data cols ms st).balances = alSum st.balances := by
  unfold processExpenses
  generalize (data.drop 1) = rows
  induction rows generalizing st with
  | nil => rfl
  | cons r rest ih => rw [List.foldl_cons, ih, processRow_alSum]

/-- C1: Conservation. Every processed expense row debits the participants by
shares summing exactly to the amount and credits the payer the full amount,
so one row never changes the total of the balance map, and after processing
any prefix of the batch (header row included) starting from the all-zero
member balances the values of the balance map sum to 0 exactly. -/
theorem C1_conservation :
    (∀ (cols : ExpenseCols) (ms : List Name) (st : RunState) (row : List String),
      alSum (processRow cols ms st row).balances = alSum st.balances) ∧
    (∀ (data : List (List String)) (cols : ExpenseCols) (ms : List Name) (k : ℕ),
      alSum (processExpenses (data.take k) cols ms ⟨initBalances ms, []⟩).balances = 0) := by
  constructor
  · exact processRow_alSum
  · intro data cols ms k
    rw [processExpenses_alSum]
    exact alSum_initBalances ms


/-!
The row-level skip discipline of processExpenses.
-/

theorem processRow_skip (cols : ExpenseCols) (ms : List Name) (st : RunState)
    (row : List String)
    (h : cellTruthy (getCell row cols.expensesStartCol) = false ∨
         cellTruthy (getCell row cols.paidByColIndex) = false ∨
         rowAmount cols row = none ∨
         getParticipants (rowSplitRaw cols row) ms = []) :
    processRow cols ms st row = st := by
  unfold processRow
  cases hamt : rowAmount cols row with
  | none => rfl
  | some a =>
    simp only []
    rcases h with h1 | h2 | h3 | h4
    · rw [if_pos (by simp [h1])]
    · rw [if_pos (by simp [h2])]
    · rw [hamt] at h3
      exact absurd h3 (by simp)
    · by_cases hg : (!cellTruthy (getCell row cols.expensesStartCol) ||
          !cellTruthy (getCell row cols.paidByColIndex)) = true
      · rw [if_pos hg]
      · rw [if_neg hg, if_pos (by simp [h4])]

theorem processExpenses_skip_removed (header : List String) (xs ys : List (List String))
    (r : List String) (cols : ExpenseCols) (ms : List Name) (st : RunState)
    (h : cellTruthy (getCell r cols.expensesStartCol) = false ∨
         cellTruthy (getCell r cols.paidByColIndex) = false ∨
         rowAmount cols r = none ∨
         getParticipants (rowSplitRaw cols r) ms = []) :
    processExpenses (header :: (xs ++ r :: ys)) cols ms st =
      processExpenses (header :: (xs ++ ys)) cols ms st := by
  unfold processExpenses
  simp only [List.drop_succ_cons, List.drop_zero]
  rw [List.foldl_append, List.foldl_append, List.foldl_cons, processRow_skip cols ms _ r h]

/-- C5 (amended): a row whose item cell is falsy, whose paid-by cell is falsy,
whose amount does not parse as a number (NaN), or whose resolved participant
list is empty, leaves the state untouched, and removing such a row from
anywhere in the batch does not change the result, so the remaining rows are
still processed and no such row aborts the run. The original claim also had
rows whose amount parses to a non-positive number skipped; the code only
tests isNaN, so such rows are processed (see the counterexample). -/
theorem C5_row_skip_policy :
    (∀ (cols : ExpenseCols) (ms : List Name) (st : RunState) (row : List String),
      (cellTruthy (getCell row cols.expensesStartCol) = false ∨
       cellTruthy (getCell row cols.paidByColIndex) = false ∨
       rowAmount cols row = none ∨
       getParticipants (rowSplitRaw cols row) ms = []) →
      processRow cols ms st row = st) ∧
    (∀ (header r : List String) (xs ys : List (List String)) (cols : ExpenseCols)
       (ms : List Name) (st : RunState),
      (cellTruthy (getCell r cols.expensesStartCol) = false ∨
       cellTruthy (getCell r cols.paidByColIndex) = false ∨
       rowAmount cols r = none ∨
       getParticipants (rowSplitRaw cols r) ms = []) →
      processExpenses (header :: (xs ++ r :: ys)) cols ms st =
        processExpenses (header :: (xs ++ ys)) cols ms st) :=
  ⟨processRow_skip, fun header r xs ys cols ms st h =>
    processExpenses_skip_removed header xs ys r cols ms st h⟩

/-- Witness for C5: a row with an empty item cell is skipped, and dropping it
from the middle of a batch leaves the run unchanged. -/
theorem C5_row_skip_policy_witness :
    processRow ⟨0, 1, 2, 3⟩ ["a"] ⟨initBalances ["a"], []⟩ ["", "a", "5", "a"] =
      ⟨initBalances ["a"], []⟩ ∧
    processExpenses [["item", "paid by", "amount", "split between"],
        ["", "a", "5", "a"], ["x", "a", "4", "a"]] ⟨0, 1, 2, 3⟩ ["a"]
        ⟨initBalances ["a"], []⟩ =
      processExpenses [["item", "paid by", "amount", "split between"],
        ["x", "a", "4", "a"]] ⟨0, 1, 2, 3⟩ ["a"] ⟨initBalances ["a"], []⟩ :=
  ⟨C5_row_skip_policy.1 ⟨0, 1, 2, 3⟩ ["a"] ⟨initBalances ["a"], []⟩ ["", "a", "5", "a"]
      (Or.inl (by decide)),
   C5_row_skip_policy.2 ["item", "paid by", "amount", "split between"] ["", "a", "5", "a"]
      [] [["x", "a", "4", "a"]] ⟨0, 1, 2, 3⟩ ["a"] ⟨initBalances ["a"], []⟩
      (Or.inl (by decide))⟩

unseal Rat.add Rat.mul Rat.inv Rat.sub Nat.gcd in
/-- C5 counterexample: a row whose amount parses to the negative number -5,
hence not to a positive number, is nevertheless not skipped: it changes the
balances, so the claim as stated is false. -/
theorem C5_negative_amount_processed :
    jsParseFloat "-5" = some (-5) ∧
    ¬ (0 : ℚ) < -5 ∧
    (processExpenses [["item", "paid by", "amount", "split between"],
        ["x", "a", "-5", "b"]] ⟨0, 1, 2, 3⟩ ["a", "b"]
        ⟨initBalances ["a", "b"], []⟩).balances = [("a", -5), ("b", 5)] ∧
    initBalances ["a", "b"] = [("a", 0), ("b", 0)] ∧
    [(("a" : Name), (-5 : ℚ)), ("b", 5)] ≠ [(("a" : Name), (0 : ℚ)), ("b", 0)] := by
  decide


/-!
Fail-fast behaviour at the expense-column resolution boundary.
-/

unseal Rat.add Rat.mul Rat.inv Rat.sub Nat.gcd in
/-- C4 evidence: with the amount header absent, getColumnIndexesExpenses
resolves the amount column to -1, yet the run does not abort: every row is
silently skipped by the NaN guard and the run completes, producing the
output tables (an all-zero balance table, an empty per-item table and an
empty transaction list) for the caller to write out. -/
theorem C4_missing_amount_column_no_abort :
    (getColumnIndexesExpenses ["item", "paid by", "split between"]).amountColIndex = -1 ∧
    runCore ["Alice"] [["Item", "Paid By", "Split Between"], ["Lunch", "Alice", "*"]] =
      Except.ok ⟨["alice"], [("alice", 0)], [], []⟩ := by
  decide

/-!
Blank-name normalization: what buildAllMembers and the payer path accept.
-/

theorem mem_foldl_dedup (l : List Name) :
    ∀ (acc : List Name) (x : Name),
      (x ∈ l.foldl (fun acc n => if acc.contains n then acc else acc ++ [n]) acc ↔
        x ∈ acc ∨ x ∈ l) := by
  induction l with
  | nil => intro acc x; simp
  | cons n rest ih =>
    intro acc x
    rw [List.foldl_cons]
    by_cases hc : acc.contains n
    · rw [if_pos hc, ih]
      constructor
      · rintro (h1 | h2)
        · exact Or.inl h1
        · exact Or.inr (List.mem_cons_of_mem n h2)
      · rintro (h1 | h2)
        · exact Or.inl h1
        · rcases List.mem_cons.mp h2 with h3 | h4
          · subst h3
            exact Or.inl (by simpa using hc)
          · exact Or.inr h4
    · rw [if_neg hc, ih]
      simp [List.mem_append, or_assoc]

theorem mem_buildAllMembers (raws : List String) (x : Name) :
    x ∈ buildAllMembers raws ↔ ∃ r ∈ raws, r ≠ "" ∧ jsToLower (jsTrim r) = x := by
  unfold buildAllMembers
  rw [mem_foldl_dedup]
  simp only [List.mem_singleton, List.not_mem_nil, false_or, List.mem_map, List.mem_filter]
  constructor
  · rintro ⟨r, ⟨hr, hne⟩, hx⟩
    exact ⟨r, hr, by simpa using hne, hx⟩
  · rintro ⟨r, hr, hne, hx⟩
    exact ⟨r, ⟨hr, by simpa using hne⟩, hx⟩

theorem processRow_processed (cols : ExpenseCols) (ms : List Name) (st : RunState)
    (row : List String) (a : ℚ)
    (ha : rowAmount cols row = some a)
    (hitem : cellTruthy (getCell row cols.expensesStartCol) = true)
    (hpaid : cellTruthy (getCell row cols.paidByColIndex) = true)
    (hps : getParticipants (rowSplitRaw cols row) ms ≠ []) :
    processRow cols ms st row =
      (let ps := getParticipants (rowSplitRaw cols row) ms
       let totalWeight := (ps.map Participant.weight).sum
       let st1 := ps.foldl (applyParticipant a totalWeight (rowItemKey cols row)) st
       { balances := alAdd st1.balances (rowPaidBy cols row) a
         perItemSplits :=
           alSet st1.perItemSplits (rowItemKey cols row)
             (alAdd ((alGet st1.perItemSplits (rowItemKey cols row)).getD [])
               (rowPaidBy cols row) a) }) := by
  unfold processRow
  rw [ha]
  simp only [hitem, hpaid, Bool.not_true, Bool.or_self, Bool.false_eq_true, if_false]
  rw [if_neg (by simpa using hps)]

theorem processRow_payer_key (cols : ExpenseCols) (ms : List Name) (st : RunState)
    (row : List String) (a : ℚ)
    (ha : rowAmount cols row = some a)
    (hitem : cellTruthy (getCell row cols.expensesStartCol) = true)
    (hpaid : cellTruthy (getCell row cols.paidByColIndex) = true)
    (hps : getParticipants (rowSplitRaw cols row) ms ≠ []) :
    alGet (processRow cols ms st row).balances (rowPaidBy cols row) ≠ none := by
  rw [processRow_processed cols ms st row a ha hitem hpaid hps]
  simp only []
  rw [alGet_alAdd_self]
  simp

unseal Rat.add Rat.mul Rat.inv Rat.sub Nat.gcd in
/-- C9 counterexample: a raw member name consisting of one space passes the
filter(Boolean) test (which precedes trimming) and becomes the Member named
"", which then appears as a key of the balances map; likewise a whitespace
payer cell is truthy and credits the key "". -/
theorem C9_whitespace_blank_member_created :
    buildAllMembers [" "] = [""] ∧
    runCore [" "] [["Item", "Paid By", "Amount", "Split Between"]] =
      Except.ok ⟨[""], [("", 0)], [], []⟩ ∧
    (processExpenses [["item", "paid by", "amount", "split between"],
        ["x", " ", "5", "a"]] ⟨0, 1, 2, 3⟩ ["a"]
        ⟨initBalances ["a"], []⟩).balances = [("a", -5), ("", 5)] := by
  decide

/-- C9 (amended): a raw name that is the empty string is rejected by the
member-list filter, but rejection happens before trimming, so the empty
canonical member name arises exactly from the raw names that are non-empty
yet normalize (trim then lower-case) to ""; and on the payer path any truthy
paid-by cell of a processed row, including a whitespace-only one whose
canonical form is "", always becomes a key of the balances map. -/
theorem C9_blank_name_policy :
    (∀ (raws : List String), "" ∈ buildAllMembers raws ↔
      ∃ r ∈ raws, r ≠ "" ∧ jsToLower (jsTrim r) = "") ∧
    (∀ (cols : ExpenseCols) (ms : List Name) (st : RunState) (row : List String) (a : ℚ),
      rowAmount cols row = some a →
      cellTruthy (getCell row cols.expensesStartCol) = true →
      cellTruthy (getCell row cols.paidByColIndex) = true →
      getParticipants (rowSplitRaw cols row) ms ≠ [] →
      alGet (processRow cols ms st row).balances (rowPaidBy cols row) ≠ none) :=
  ⟨fun raws => mem_buildAllMembers raws "", processRow_payer_key⟩

unseal Rat.add Rat.mul Rat.inv Rat.sub Nat.gcd in
/-- Witness for C9: at the one-space raw member list the characterization
yields membership of "", and at a concrete processed row with whitespace
payer the balances map holds the key "". -/
theorem C9_blank_name_policy_witness :
    ("" ∈ buildAllMembers [" "]) ∧
    alGet (processRow ⟨0, 1, 2, 3⟩ ["a"] ⟨initBalances ["a"], []⟩
      ["x", " ", "5", "a"]).balances (rowPaidBy ⟨0, 1, 2, 3⟩ ["x", " ", "5", "a"]) ≠ none :=
  ⟨(C9_blank_name_policy.1 [" "]).mpr ⟨" ", by decide, by decide, by decide⟩,
   C9_blank_name_policy.2 ⟨0, 1, 2, 3⟩ ["a"] ⟨initBalances ["a"], []⟩ ["x", " ", "5", "a"] 5
     (by decide) (by decide) (by decide) (by decide)⟩


/-!
Per-name effect of the participant fold and of one processed row.
-/

theorem alGet_alSet_self {β : Type} (m : List (Name × β)) (k : Name) (v : β) :
    alGet (alSet m k v) k = some v := by
  induction m with
  | nil => simp [alSet, alGet, List.find?]
  | cons e rest ih =>
    by_cases h : e.1 = k
    · rw [alSet_cons_eq e rest v h, alGet_cons, if_pos rfl]
    · rw [alSet_cons_ne e rest v h, alGet_cons, if_neg h, ih]

theorem alGet_alSet_ne {β : Type} (m : List (Name × β)) (k n : Name) (v : β)
    (h : ¬ n = k) : alGet (alSet m k v) n = alGet m n := by
  induction m with
  | nil =>
    have hb : (k == n) = false := beq_eq_false_iff_ne.mpr (fun hc => h hc.symm)
    simp [alSet, alGet, List.find?, hb]
  | cons e rest ih =>
    by_cases he : e.1 = k
    · rw [alSet_cons_eq e rest v he, alGet_cons, alGet_cons]
      have hkn : ¬ (k = n) := fun hc => h hc.symm
      rw [if_neg hkn, if_neg (he ▸ hkn)]
    · rw [alSet_cons_ne e rest v he, alGet_cons, alGet_cons, ih]

theorem getD_alAdd (m : List (Name × ℚ)) (k n : Name) (d : ℚ) :
    (alGet (alAdd m k d) n).getD 0 =
      (alGet m n).getD 0 + (if k = n then d else 0) := by
  by_cases h : n = k
  · subst h
    rw [alGet_alAdd_self, if_pos rfl]
    simp
  · rw [alGet_alAdd_ne m k n d h, if_neg (fun hc => h hc.symm)]
    simp

theorem alGet_foldl_not_mem (ps : List Participant) (f : Participant → ℚ)
    (b0 : List (Name × ℚ)) (n : Name) (h : ∀ p ∈ ps, p.name ≠ n) :
    alGet (ps.foldl (fun b p => alAdd b p.name (f p)) b0) n = alGet b0 n := by
  induction ps generalizing b0 with
  | nil => rfl
  | cons p rest ih =>
    rw [List.foldl_cons, ih _ (fun q hq => h q (List.mem_cons_of_mem p hq)),
      alGet_alAdd_ne b0 p.name n (f p) (fun hc => h p (List.mem_cons_self p rest) hc.symm)]

theorem getD_foldl_alAdd (ps : List Participant) (f : Participant → ℚ)
    (b0 : List (Name × ℚ)) (n : Name)
    (hnd : (ps.map Participant.name).Nodup) :
    (alGet (ps.foldl (fun b p => alAdd b p.name (f p)) b0) n).getD 0 =
      (alGet b0 n).getD 0 +
        (match ps.find? (fun p => p.name == n) with
         | some p => f p
         | none => 0) := by
  induction ps generalizing b0 with
  | nil => simp [List.find?]
  | cons p rest ih =>
    rw [List.map_cons, List.nodup_cons] at hnd
    by_cases hp : p.name = n
    · have hrest : ∀ q ∈ rest, q.name ≠ n := by
        intro q hq hc
        exact hnd.1 (hp ▸ hc ▸ List.mem_map_of_mem Participant.name hq)
      rw [List.foldl_cons, alGet_foldl_not_mem rest f _ n hrest]
      have hb : (p.name == n) = true := beq_iff_eq.mpr hp
      rw [List.find?, hb]
      rw [hp, alGet_alAdd_self]
      simp
    · have hb : (p.name == n) = false := beq_eq_false_iff_ne.mpr hp
      rw [List.foldl_cons, ih _ hnd.2, List.find?, hb,
        alGet_alAdd_ne b0 p.name n (f p) (fun hc => hp hc.symm)]

theorem alGet_isSome_alAdd (m : List (Name × ℚ)) (k n : Name) (d : ℚ)
    (h : alGet m n ≠ none) : alGet (alAdd m k d) n ≠ none := by
  by_cases hk : n = k
  · subst hk
    rw [alGet_alAdd_self]
    simp
  · rw [alGet_alAdd_ne m k n d hk]
    exact h

theorem alGet_foldl_mem (ps : List Participant) (f : Participant → ℚ)
    (b0 : List (Name × ℚ)) (n : Name)
    (h : n ∈ ps.map Participant.name ∨ alGet b0 n ≠ none) :
    alGet (ps.foldl (fun b p => alAdd b p.name (f p)) b0) n ≠ none := by
  induction ps generalizing b0 with
  | nil =>
    rcases h with h1 | h2
    · simp at h1
    · exact h2
  | cons p rest ih =>
    rw [List.foldl_cons]
    rcases h with h1 | h2
    · rw [List.map_cons] at h1
      rcases List.mem_cons.mp h1 with h3 | h4
      · refine ih _ (Or.inr ?_)
        rw [← h3, alGet_alAdd_self]
        simp
      · exact ih _ (Or.inl h4)
    · exact ih _ (Or.inr (alGet_isSome_alAdd b0 p.name n (f p) h2))


theorem processRow_balance_getD (cols : ExpenseCols) (ms : List Name) (st : RunState)
    (row : List String) (a : ℚ) (n : Name)
    (ha : rowAmount cols row = some a)
    (hitem : cellTruthy (getCell row cols.expensesStartCol) = true)
    (hpaid : cellTruthy (getCell row cols.paidByColIndex) = true)
    (hps : getParticipants (rowSplitRaw cols row) ms ≠ [])
    (hnd : ((getParticipants (rowSplitRaw cols row) ms).map Participant.name).Nodup) :
    (alGet (processRow cols ms st row).balances n).getD 0 =
      (alGet st.balances n).getD 0 -
        (match (getParticipants (rowSplitRaw cols row) ms).find? (fun p => p.name == n) with
         | some p => a * (p.weight /
             ((getParticipants (rowSplitRaw cols row) ms).map Participant.weight).sum)
         | none => 0) +
      (if rowPaidBy cols row = n then a else 0) := by
  rw [processRow_processed cols ms st row a ha hitem hpaid hps]
  simp only []
  rw [getD_alAdd, foldl_applyParticipant_balances, getD_foldl_alAdd _ _ _ _ hnd]
  cases hf : (getParticipants (rowSplitRaw cols row) ms).find? (fun p => p.name == n) with
  | none => ring
  | some p => ring

theorem alGet_splits_foldl_aux (ps : List Participant) (f : Participant → ℚ) (item : String) :
    ∀ (sp0 : List (String × List (Name × ℚ))) (sub : List (Name × ℚ)),
      alGet sp0 item = some sub →
      alGet (ps.foldl (fun sp p =>
          alSet sp item (alAdd ((alGet sp item).getD []) p.name (f p))) sp0) item =
        some (ps.foldl (fun b p => alAdd b p.name (f p)) sub) := by
  induction ps with
  | nil => intro sp0 sub h; exact h
  | cons p rest ih =>
    intro sp0 sub h
    rw [List.foldl_cons, List.foldl_cons]
    apply ih
    rw [alGet_alSet_self, h]
    rfl

theorem alGet_splits_foldl (ps : List Participant) (f : Participant → ℚ) (item : String)
    (sp0 : List (String × List (Name × ℚ))) (hne : ps ≠ []) :
    alGet (ps.foldl (fun sp p =>
        alSet sp item (alAdd ((alGet sp item).getD []) p.name (f p))) sp0) item =
      some (ps.foldl (fun b p => alAdd b p.name (f p)) ((alGet sp0 item).getD [])) := by
  cases ps with
  | nil => exact absurd rfl hne
  | cons p rest =>
    rw [List.foldl_cons, List.foldl_cons]
    apply alGet_splits_foldl_aux
    rw [alGet_alSet_self]

theorem processRow_split_getD (cols : ExpenseCols) (ms : List Name) (st : RunState)
    (row : List String) (a : ℚ) (n : Name)
    (ha : rowAmount cols row = some a)
    (hitem : cellTruthy (getCell row cols.expensesStartCol) = true)
    (hpaid : cellTruthy (getCell row cols.paidByColIndex) = true)
    (hps : getParticipants (rowSplitRaw cols row) ms ≠ [])
    (hnd : ((getParticipants (rowSplitRaw cols row) ms).map Participant.name).Nodup) :
    (alGet ((alGet (processRow cols ms st row).perItemSplits
        (rowItemKey cols row)).getD []) n).getD 0 =
      (alGet ((alGet st.perItemSplits (rowItemKey cols row)).getD []) n).getD 0 -
        (match (getParticipants (rowSplitRaw cols row) ms).find? (fun p => p.name == n) with
         | some p => a * (p.weight /
             ((getParticipants (rowSplitRaw cols row) ms).map Participant.weight).sum)
         | none => 0) +
      (if rowPaidBy cols row = n then a else 0) := by
  rw [processRow_processed cols ms st row a ha hitem hpaid hps]
  simp only []
  rw [alGet_alSet_self]
  simp only [Option.getD_some]
  rw [getD_alAdd, foldl_applyParticipant_splits, alGet_splits_foldl _ _ _ _ hps]
  simp only [Option.getD_some]
  rw [getD_foldl_alAdd _ _ _ _ hnd]
  cases hf : (getParticipants (rowSplitRaw cols row) ms).find? (fun p => p.name == n) with
  | none => ring
  | some p => ring

theorem dedupByNameAux_names (ps : List Participant) :
    ∀ (seen : List Name), ((dedupByNameAux ps seen).map Participant.name).Nodup ∧
      ∀ n ∈ (dedupByNameAux ps seen).map Participant.name, ¬ n ∈ seen := by
  induction ps with
  | nil => intro seen; simp [dedupByNameAux]
  | cons p rest ih =>
    intro seen
    rw [dedupByNameAux]
    by_cases hc : seen.contains p.name
    · rw [if_pos hc]
      exact ih seen
    · rw [if_neg hc]
      obtain ⟨ih1, ih2⟩ := ih (p.name :: seen)
      constructor
      · rw [List.map_cons, List.nodup_cons]
        exact ⟨fun hmem => (ih2 p.name hmem) (List.mem_cons_self _ _), ih1⟩
      · intro n hn
        rw [List.map_cons] at hn
        rcases List.mem_cons.mp hn with h1 | h2
        · subst h1
          simpa using hc
        · intro hns
          exact ih2 n h2 (List.mem_cons_of_mem _ hns)

theorem getParticipants_names_nodup (s : String) (ms : List Name)
    (h : ¬ jsTrim s = "*") :
    ((getParticipants s ms).map Participant.name).Nodup := by
  unfold getParticipants
  rw [if_neg (by simpa using h)]
  exact (dedupByNameAux_names _ []).1

theorem getParticipants_wildcard (s : String) (ms : List Name) (h : jsTrim s = "*") :
    getParticipants s ms = ms.map (fun m => ⟨m, 1⟩) := by
  unfold getParticipants
  rw [if_pos (by simpa using h)]


theorem find_wildcard (ms : List Name) (n : Name) (hn : n ∈ ms) :
    (ms.map (fun m => (⟨m, 1⟩ : Participant))).find? (fun p => p.name == n) =
      some ⟨n, 1⟩ := by
  induction ms with
  | nil => simp at hn
  | cons m rest ih =>
    rw [List.map_cons]
    by_cases hm : m = n
    · subst hm
      rw [List.find?_cons_of_pos _ (by simp)]
    · rw [List.find?_cons_of_neg _ (by simpa using hm)]
      rcases List.mem_cons.mp hn with h1 | h2
      · exact absurd h1.symm hm
      · exact ih h2

theorem wildcard_weight_sum (ms : List Name) :
    ((ms.map (fun m => (⟨m, 1⟩ : Participant))).map Participant.weight).sum =
      (ms.length : ℚ) := by
  rw [List.map_map]
  induction ms with
  | nil => simp
  | cons m rest ih =>
    rw [List.map_cons, List.sum_cons, ih]
    simp only [Function.comp, List.length_cons]
    push_cast
    ring

theorem wildcard_names (ms : List Name) :
    (ms.map (fun m => (⟨m, 1⟩ : Participant))).map Participant.name = ms := by
  rw [List.map_map]
  exact List.map_id ms

unseal Rat.add Rat.mul Rat.inv Rat.sub Nat.gcd in
/-- C10: no membership check is made for explicit split lists: getParticipants
ignores the known-member set entirely for non-wildcard specifiers, every
processed row leaves each resolved participant name and the payer name as a
key of the balances map (freshly created at 0 before the debit or credit when
absent), and in a concrete run a misspelled name (dave, not a member) silently
enlarges the balance table with entry dave = -5. -/
theorem C10_unknown_names_silent_participants :
    (∀ (s : String) (ms ms2 : List Name), ¬ jsTrim s = "*" →
      getParticipants s ms = getParticipants s ms2) ∧
    (∀ (cols : ExpenseCols) (ms : List Name) (st : RunState) (row : List String) (a : ℚ),
      rowAmount cols row = some a →
      cellTruthy (getCell row cols.expensesStartCol) = true →
      cellTruthy (getCell row cols.paidByColIndex) = true →
      getParticipants (rowSplitRaw cols row) ms ≠ [] →
      (∀ p ∈ getParticipants (rowSplitRaw cols row) ms,
        alGet (processRow cols ms st row).balances p.name ≠ none) ∧
      alGet (processRow cols ms st row).balances (rowPaidBy cols row) ≠ none) ∧
    ((processExpenses [["item", "paid by", "amount", "split between"],
        ["x", "alice", "10", "alice,dave"]] ⟨0, 1, 2, 3⟩ ["alice"]
        ⟨initBalances ["alice"], []⟩).balances = [("alice", 5), ("dave", -5)] ∧
      ¬ "dave" ∈ ["alice"]) := by
  refine ⟨?_, ?_, by decide, by decide⟩
  · intro s ms ms2 h
    unfold getParticipants
    rw [if_neg (by simpa using h), if_neg (by simpa using h)]
  · intro cols ms st row a ha hitem hpaid hps
    constructor
    · intro p hp
      rw [processRow_processed cols ms st row a ha hitem hpaid hps]
      simp only []
      apply alGet_isSome_alAdd
      rw [foldl_applyParticipant_balances]
      exact alGet_foldl_mem _ _ _ _ (Or.inl (List.mem_map_of_mem Participant.name hp))
    · exact processRow_payer_key cols ms st row a ha hitem hpaid hps

unseal Rat.add Rat.mul Rat.inv Rat.sub Nat.gcd in
/-- Witness for C10: the participants of the list dave do not depend on the
member set, and processing the row with split alice,dave leaves dave a key of
the balances map although dave is not a member. -/
theorem C10_unknown_names_witness :
    getParticipants "dave" ["alice"] = getParticipants "dave" [] ∧
    alGet (processRow ⟨0, 1, 2, 3⟩ ["alice"] ⟨initBalances ["alice"], []⟩
      ["x", "alice", "10", "alice,dave"]).balances "dave" ≠ none :=
  ⟨C10_unknown_names_silent_participants.1 "dave" ["alice"] [] (by decide),
   (C10_unknown_names_silent_participants.2.1 ⟨0, 1, 2, 3⟩ ["alice"]
      ⟨initBalances ["alice"], []⟩ ["x", "alice", "10", "alice,dave"] 10
      (by decide) (by decide) (by decide) (by decide)).1 ⟨"dave", 1⟩ (by decide)⟩

unseal Rat.add Rat.mul Rat.inv Rat.sub Nat.gcd in
/-- C7: weighted split. Participant names are distinct after deduplication;
for every processed row, every name is debited its weighted share
amount times weight over totalWeight in both the balance map and the
per-item split entry, and the payer is credited the full amount in both,
whether or not the payer is a participant; on the concrete weighted example
(pay Bob 100, split Alice:3,Bob:1) Alice nets -75 and Bob +75 on the item. -/
theorem C7_weighted_split :
    (∀ (s : String) (ms : List Name), ¬ jsTrim s = "*" →
      ((getParticipants s ms).map Participant.name).Nodup) ∧
    (∀ (cols : ExpenseCols) (ms : List Name) (st : RunState) (row : List String)
       (a : ℚ) (n : Name),
      rowAmount cols row = some a →
      cellTruthy (getCell row cols.expensesStartCol) = true →
      cellTruthy (getCell row cols.paidByColIndex) = true →
      getParticipants (rowSplitRaw cols row) ms ≠ [] →
      ((getParticipants (rowSplitRaw cols row) ms).map Participant.name).Nodup →
      ((alGet (processRow cols ms st row).balances n).getD 0 =
        (alGet st.balances n).getD 0 -
          (match (getParticipants (rowSplitRaw cols row) ms).find?
              (fun p => p.name == n) with
           | some p => a * (p.weight /
               ((getParticipants (rowSplitRaw cols row) ms).map Participant.weight).sum)
           | none => 0) +
        (if rowPaidBy cols row = n then a else 0)) ∧
      ((alGet ((alGet (processRow cols ms st row).perItemSplits
          (rowItemKey cols row)).getD []) n).getD 0 =
        (alGet ((alGet st.perItemSplits (rowItemKey cols row)).getD []) n).getD 0 -
          (match (getParticipants (rowSplitRaw cols row) ms).find?
              (fun p => p.name == n) with
           | some p => a * (p.weight /
               ((getParticipants (rowSplitRaw cols row) ms).map Participant.weight).sum)
           | none => 0) +
        (if rowPaidBy cols row = n then a else 0))) ∧
    (processExpenses [["item", "paid by", "amount", "split between"],
        ["x", "Bob", "100", "Alice:3,Bob:1"]] ⟨0, 1, 2, 3⟩ ["alice", "bob"]
        ⟨initBalances ["alice", "bob"], []⟩ =
      ⟨[("alice", -75), ("bob", 75)], [("x", [("alice", -75), ("bob", 75)])]⟩) := by
  refine ⟨getParticipants_names_nodup, ?_, by decide⟩
  intro cols ms st row a n ha hitem hpaid hps hnd
  exact ⟨processRow_balance_getD cols ms st row a n ha hitem hpaid hps hnd,
    processRow_split_getD cols ms st row a n ha hitem hpaid hps hnd⟩

unseal Rat.add Rat.mul Rat.inv Rat.sub Nat.gcd in
/-- Witness for C7: on the weighted example row, the balance entry of alice
comes out at -75 = 0 - 100 times 3 over 4. -/
theorem C7_weighted_split_witness :
    (alGet (processRow ⟨0, 1, 2, 3⟩ ["alice", "bob"] ⟨initBalances ["alice", "bob"], []⟩
      ["x", "Bob", "100", "Alice:3,Bob:1"]).balances "alice").getD 0 = -75 := by
  have h := (C7_weighted_split.2.1 ⟨0, 1, 2, 3⟩ ["alice", "bob"]
    ⟨initBalances ["alice", "bob"], []⟩ ["x", "Bob", "100", "Alice:3,Bob:1"] 100 "alice"
    (by decide) (by decide) (by decide) (by decide) (by decide)).1
  rw [h]
  decide


unseal Rat.add Rat.mul Rat.inv Rat.sub Nat.gcd in
/-- C6: wildcard split. A split specifier that trims to the token star
resolves to every known member with weight 1; on a processed wildcard row
every member is debited amount over N (N the number of known members) and
the payer additionally credited the full amount; and on the concrete lunch
example (members alice, bob, carol; alice pays 90 split by star) the run
produces balances alice +60, bob -30, carol -30 and the two member-level
transfers of 30 each from bob and carol to alice, 60 in total. -/
theorem C6_wildcard_split :
    (∀ (s : String) (ms : List Name), jsTrim s = "*" →
      getParticipants s ms = ms.map (fun m => ⟨m, 1⟩)) ∧
    (∀ (cols : ExpenseCols) (ms : List Name) (st : RunState) (row : List String)
       (a : ℚ) (n : Name),
      jsTrim (rowSplitRaw cols row) = "*" →
      ms.Nodup → n ∈ ms →
      rowAmount cols row = some a →
      cellTruthy (getCell row cols.expensesStartCol) = true →
      cellTruthy (getCell row cols.paidByColIndex) = true →
      (alGet (processRow cols ms st row).balances n).getD 0 =
        (alGet st.balances n).getD 0 - a / (ms.length : ℚ) +
        (if rowPaidBy cols row = n then a else 0)) ∧
    (runCore ["Alice", "Bob", "Carol"]
        [["Item", "Paid By", "Amount", "Split Between"],
         ["Lunch", "Alice", "90", "*"]] =
      Except.ok ⟨["alice", "bob", "carol"],
        [("alice", 60), ("bob", -30), ("carol", -30)],
        [("Lunch", [("alice", 60), ("bob", -30), ("carol", -30)])],
        [("Bob", "Alice", 30), ("Carol", "Alice", 30)]⟩ ∧
      (30 : ℚ) + 30 = 60) := by
  refine ⟨getParticipants_wildcard, ?_, by decide, by decide⟩
  intro cols ms st row a n hsplit hnd hn ha hitem hpaid
  have hms : ms ≠ [] := by
    intro hc
    rw [hc] at hn
    simp at hn
  have hps : getParticipants (rowSplitRaw cols row) ms ≠ [] := by
    rw [getParticipants_wildcard _ _ hsplit]
    simpa using hms
  have hndp : ((getParticipants (rowSplitRaw cols row) ms).map Participant.name).Nodup := by
    rw [getParticipants_wildcard _ _ hsplit, wildcard_names]
    exact hnd
  rw [processRow_balance_getD cols ms st row a n ha hitem hpaid hps hndp,
    getParticipants_wildcard _ _ hsplit, find_wildcard ms n hn, wildcard_weight_sum]
  simp only []
  rw [mul_one_div]

unseal Rat.add Rat.mul Rat.inv Rat.sub Nat.gcd in
/-- Witness for C6: on the lunch row, bob ends at 0 - 90 over 3 = -30. -/
theorem C6_wildcard_split_witness :
    (alGet (processRow ⟨0, 1, 2, 3⟩ ["alice", "bob", "carol"]
      ⟨initBalances ["alice", "bob", "carol"], []⟩
      ["Lunch", "Alice", "90", "*"]).balances "bob").getD 0 = -30 := by
  have h := C6_wildcard_split.2.1 ⟨0, 1, 2, 3⟩ ["alice", "bob", "carol"]
    ⟨initBalances ["alice", "bob", "carol"], []⟩ ["Lunch", "Alice", "90", "*"] 90 "bob"
    (by decide) (by decide) (by decide) (by decide) (by decide) (by decide)
  rw [h]
  decide


/-!
Subgroup assignment: first containing registered group, else self-group.
-/

/-- The selector the claim describes: the key of the first registered group
whose member set contains m, else m itself as a self-group key. -/
def specFirstKey (subgroupMap : SubgroupMap) (m : Name) : String :=
  match subgroupMap.find? (fun kg => kg.2.contains m) with
  | some kg => kg.1
  | none => m

theorem alGet_append {β : Type} (l1 l2 : List (Name × β)) (k : Name) :
    alGet (l1 ++ l2) k = ((alGet l1 k).or (alGet l2 k)) := by
  unfold alGet
  rw [List.find?_append]
  cases List.find? (fun e => e.1 == k) l1 <;> simp

theorem alSet_append_fresh {β : Type} (l : List (Name × β)) (k : Name) (v : β)
    (h : ∀ e ∈ l, e.1 ≠ k) : alSet l k v = l ++ [(k, v)] := by
  induction l with
  | nil => rfl
  | cons e rest ih =>
    rw [alSet_cons_ne e rest v (h e (List.mem_cons_self e rest)),
      ih (fun x hx => h x (List.mem_cons_of_mem e hx))]
    rfl

theorem assign_map_preserves (members : List Name) (k : Name) :
    ∀ (map : SubgroupMap), (∀ m ∈ members, m ≠ k) →
      alGet (assignMembersToSubgroups members map).1 k = alGet map k := by
  induction members with
  | nil => intro map h; rfl
  | cons m rest ih =>
    intro map h
    rw [assignMembersToSubgroups]
    cases hf : map.find? (fun kg => kg.2.contains m) with
    | some kg =>
      simp only []
      exact ih map (fun x hx => h x (List.mem_cons_of_mem m hx))
    | none =>
      simp only []
      rw [ih _ (fun x hx => h x (List.mem_cons_of_mem m hx)),
        alGet_alSet_ne map m k _ (fun hc => (h m (List.mem_cons_self m rest)) hc.symm)]

theorem assignLoop_spec (members : List Name) :
    ∀ (extra : SubgroupMap),
      members.Nodup →
      (∀ m ∈ members, ∀ kg ∈ map₀, kg.1 = m → m ∈ kg.2) →
      (∀ kg ∈ extra, kg.2 = [kg.1] ∧ ¬ kg.1 ∈ members) →
      ∀ m ∈ members,
        alGet (assignMembersToSubgroups members (map₀ ++ extra)).2 m =
          some (specFirstKey map₀ m) ∧
        (map₀.find? (fun kg => kg.2.contains m) = none →
          alGet (assignMembersToSubgroups members (map₀ ++ extra)).1 m = some [m]) := by
  induction members with
  | nil => intro extra _ _ _ m hm; simp at hm
  | cons m0 rest ih =>
    intro extra hnd hkey hextra m hm
    rw [List.nodup_cons] at hnd
    have hext_m0 : ∀ kg ∈ extra, (kg.2.contains m0) = false := by
      intro kg hkg
      obtain ⟨hsing, hnm⟩ := hextra kg hkg
      rw [hsing]
      by_cases hq : kg.1 = m0
      · exact absurd (hq ▸ List.mem_cons_self m0 rest) hnm
      · have hq2 : ¬ m0 = kg.1 := fun hc => hq hc.symm
        simpa using hq2
    have hext_none : extra.find? (fun kg => kg.2.contains m0) = none :=
      List.find?_eq_none.mpr (fun kg hkg => by simpa using hext_m0 kg hkg)
    rw [assignMembersToSubgroups]
    cases hf : (map₀ ++ extra).find? (fun kg => kg.2.contains m0) with
    | some kg =>
      have hmap0f : map₀.find? (fun kg => kg.2.contains m0) = some kg := by
        rw [List.find?_append, hext_none] at hf
        cases hmf : map₀.find? (fun kg => kg.2.contains m0) with
        | none => rw [hmf] at hf; simp at hf
        | some kg2 => rw [hmf] at hf; simpa using hf
      simp only []
      rcases List.mem_cons.mp hm with h1 | h2
      · subst h1
        constructor
        · rw [alGet_cons, if_pos rfl]
          unfold specFirstKey
          rw [hmap0f]
        · intro hnone
          rw [hnone] at hmap0f
          exact absurd hmap0f (by simp)
      · have hne : ¬ (m0 = m) := fun hc => hnd.1 (hc ▸ h2)
        have := ih extra hnd.2
          (fun x hx kg2 hkg2 => hkey x (List.mem_cons_of_mem m0 hx) kg2 hkg2)
          (fun kg2 hkg2 => ⟨(hextra kg2 hkg2).1,
            fun hc => (hextra kg2 hkg2).2 (List.mem_cons_of_mem m0 hc)⟩)
          m h2
        constructor
        · rw [alGet_cons, if_neg hne]
          exact this.1
        · exact this.2
    | none =>
      have hmap0f : map₀.find? (fun kg => kg.2.contains m0) = none := by
        rw [List.find?_append, hext_none] at hf
        cases hmf : map₀.find? (fun kg => kg.2.contains m0) with
        | none => rfl
        | some kg2 => rw [hmf] at hf; simp at hf
      have hfresh : ∀ e ∈ map₀ ++ extra, e.1 ≠ m0 := by
        intro e he hc
        rcases List.mem_append.mp he with h1 | h2
        · have hmem := hkey m0 (List.mem_cons_self m0 rest) e h1 hc
          have hcont := List.find?_eq_none.mp hmap0f e h1
          exact hcont (by simpa using hmem)
        · exact (hextra e h2).2 (hc ▸ List.mem_cons_self m0 rest)
      have hset : alSet (map₀ ++ extra) m0 [m0] = map₀ ++ (extra ++ [(m0, [m0])]) := by
        rw [alSet_append_fresh _ _ _ hfresh, List.append_assoc]
      simp only []
      rw [hset]
      have hextra2 : ∀ kg ∈ extra ++ [(m0, [m0])], kg.2 = [kg.1] ∧ ¬ kg.1 ∈ rest := by
        intro kg hkg
        rcases List.mem_append.mp hkg with h1 | h2
        · exact ⟨(hextra kg h1).1,
            fun hc => (hextra kg h1).2 (List.mem_cons_of_mem m0 hc)⟩
        · rw [List.mem_singleton] at h2
          subst h2
          exact ⟨rfl, hnd.1⟩
      rcases List.mem_cons.mp hm with h1 | h2
      · subst h1
        constructor
        · rw [alGet_cons, if_pos rfl]
          unfold specFirstKey
          rw [hmap0f]
        · intro _
          rw [assign_map_preserves rest m (map₀ ++ (extra ++ [(m, [m])]))
            (fun x hx hc => hnd.1 (hc ▸ hx))]
          rw [alGet_append, alGet_append]
          have h1 : alGet map₀ m = none := by
            unfold alGet
            rw [List.find?_eq_none.mpr (fun e he => by
              simpa using fun hc => (hfresh e (List.mem_append_left extra he)) hc)]
            rfl
          have h2 : alGet extra m = none := by
            unfold alGet
            rw [List.find?_eq_none.mpr (fun e he => by
              simpa using fun hc => (hfresh e (List.mem_append_right map₀ he)) hc)]
            rfl
          rw [h1, h2]
          simp [alGet_cons]
      · have hne : ¬ (m0 = m) := fun hc => hnd.1 (hc ▸ h2)
        have := ih (extra ++ [(m0, [m0])]) hnd.2
          (fun x hx kg2 hkg2 => hkey x (List.mem_cons_of_mem m0 hx) kg2 hkg2)
          hextra2 m h2
        constructor
        · rw [alGet_cons, if_neg hne]
          exact this.1
        · exact this.2


/-- C8 counterexample: with member set in iteration order (a,b then a) and the
registered group keyed a,b with members a and b, the member named a is
contained in that first registered group, but the code assigns it the
self-group key a: while processing the comma-named member a,b the loop found
no containing group and re-registered the existing key a,b as the singleton
group of a,b, erasing the group in which a would have been found. -/
theorem C8_first_group_counterexample :
    specFirstKey [("a,b", ["a", "b"])] "a" = "a,b" ∧
    "a" ∈ (["a", "b"] : List Name) ∧
    alGet (assignMembersToSubgroups ["a,b", "a"] [("a,b", ["a", "b"])]).2 "a" = some "a" ∧
    ¬ alGet (assignMembersToSubgroups ["a,b", "a"] [("a,b", ["a", "b"])]).2 "a" =
      some "a,b" := by
  decide

/-- C8 (amended): provided no member name coincides with the key of a
registered group whose member set does not contain it (with comma-free member
names every canonical key satisfies this), each known member is assigned
exactly the key of the first registered group containing it, in registration
order, and a member contained in no registered group is assigned a fresh
singleton group holding only itself, which also survives into the final map. -/
theorem C8_subgroup_assignment (members : List Name) (subgroupMap : SubgroupMap)
    (hnd : members.Nodup)
    (hkey : ∀ m ∈ members, ∀ kg ∈ subgroupMap, kg.1 = m → m ∈ kg.2) :
    ∀ m ∈ members,
      alGet (assignMembersToSubgroups members subgroupMap).2 m =
        some (specFirstKey subgroupMap m) ∧
      (subgroupMap.find? (fun kg => kg.2.contains m) = none →
        alGet (assignMembersToSubgroups members subgroupMap).1 m = some [m]) := by
  have h := assignLoop_spec members [] hnd hkey (by simp)
  rw [List.append_nil] at h
  exact h

/-- Witness for C8: member a lands in the registered group keyed a,b and
member c, contained in no registered group, gets the singleton group c. -/
theorem C8_subgroup_assignment_witness :
    alGet (assignMembersToSubgroups ["a", "c"] [("a,b", ["a", "b"])]).2 "a" =
      some (specFirstKey [("a,b", ["a", "b"])] "a") ∧
    alGet (assignMembersToSubgroups ["a", "c"] [("a,b", ["a", "b"])]).1 "c" = some ["c"] :=
  ⟨(C8_subgroup_assignment ["a", "c"] [("a,b", ["a", "b"])] (by decide)
      (by decide) "a" (by decide)).1,
   (C8_subgroup_assignment ["a", "c"] [("a,b", ["a", "b"])] (by decide)
      (by decide) "c" (by decide)).2 (by decide)⟩


/-!
The stable descending sort: permutation, sortedness, head maximality.
-/

theorem insertDesc_perm (x : Party) (l : List Party) :
    (insertDesc x l).Perm (x :: l) := by
  induction l with
  | nil => exact List.Perm.refl _
  | cons y ys ih =>
    rw [insertDesc]
    by_cases h : y.amount ≤ x.amount
    · rw [if_pos h]
    · rw [if_neg h]
      exact (ih.cons y).trans (List.Perm.swap x y ys)

theorem sortByAmountDesc_perm (l : List Party) : (sortByAmountDesc l).Perm l := by
  induction l with
  | nil => exact List.Perm.refl _
  | cons x xs ih =>
    rw [sortByAmountDesc]
    exact (insertDesc_perm x (sortByAmountDesc xs)).trans (ih.cons x)

/-- Descending order by amount. -/
def SortedDesc (l : List Party) : Prop :=
  l.Pairwise (fun a b => b.amount ≤ a.amount)

theorem insertDesc_sorted (x : Party) (l : List Party) (h : SortedDesc l) :
    SortedDesc (insertDesc x l) := by
  induction l with
  | nil => simp [insertDesc, SortedDesc]
  | cons y ys ih =>
    obtain ⟨h1, h2⟩ := List.pairwise_cons.mp h
    rw [insertDesc]
    by_cases hxy : y.amount ≤ x.amount
    · rw [if_pos hxy]
      refine List.Pairwise.cons ?_ (List.Pairwise.cons h1 h2)
      intro z hz
      rcases List.mem_cons.mp hz with hz1 | hz2
      · exact hz1 ▸ hxy
      · exact le_trans (h1 z hz2) hxy
    · rw [if_neg hxy]
      refine List.Pairwise.cons ?_ (ih h2)
      intro z hz
      have hz3 := (insertDesc_perm x ys).mem_iff.mp hz
      rcases List.mem_cons.mp hz3 with hz1 | hz2
      · exact hz1 ▸ le_of_lt (lt_of_not_le hxy)
      · exact h1 z hz2

theorem sortByAmountDesc_sorted (l : List Party) : SortedDesc (sortByAmountDesc l) := by
  induction l with
  | nil => simp [sortByAmountDesc, SortedDesc]
  | cons x xs ih => exact insertDesc_sorted x (sortByAmountDesc xs) ih

theorem sortByAmountDesc_head_max (l : List Party) (c : Party) (cs : List Party)
    (h : sortByAmountDesc l = c :: cs) : ∀ x ∈ l, x.amount ≤ c.amount := by
  intro x hx
  have hx2 : x ∈ c :: cs := h ▸ (sortByAmountDesc_perm l).symm.subset hx
  rcases List.mem_cons.mp hx2 with h1 | h2
  · exact h1 ▸ le_refl _
  · have hs := sortByAmountDesc_sorted l
    rw [SortedDesc, h] at hs
    exact (List.pairwise_cons.mp hs).1 x h2

/-!
The greedy settlement relation, worded as the specification describes the
loop: partition into creditors and debtors; while both sets are non-empty,
pick a creditor and a debtor of maximal remaining amount, transfer the
minimum of the two remainders (strictly positive), decrement both, and drop
a party whose remainder fell below 0.01; transactions are emitted in loop
order.
-/

inductive GreedyRun (fmt : String → String) :
    List Party → List Party → List Transaction → Prop
  | stop_creditors (ds : List Party) : GreedyRun fmt [] ds []
  | stop_debtors (cs : List Party) : GreedyRun fmt cs [] []
  | step (cs ds : List Party) (c d : Party) (crest drest : List Party) (t : ℚ)
      (txs : List Transaction) :
      cs.Perm (c :: crest) → ds.Perm (d :: drest) →
      (∀ x ∈ cs, x.amount ≤ c.amount) → (∀ x ∈ ds, x.amount ≤ d.amount) →
      t = min d.amount c.amount → 0 < t →
      GreedyRun fmt
        (if c.amount - t < 1/100 then crest else ⟨c.name, c.amount - t⟩ :: crest)
        (if d.amount - t < 1/100 then drest else ⟨d.name, d.amount - t⟩ :: drest) txs →
      GreedyRun fmt cs ds ((fmt d.name, fmt c.name, t) :: txs)

theorem settleLoop_greedy (fmt : String → String) :
    ∀ (fuel : ℕ) (cs ds : List Party),
      (∀ x ∈ cs ++ ds, 1/100 ≤ x.amount) →
      cs.length + ds.length ≤ fuel →
      GreedyRun fmt cs ds (settleLoop fmt fuel cs ds) := by
  intro fuel
  induction fuel with
  | zero =>
    intro cs ds hinv hlen
    rw [Nat.le_zero, Nat.add_eq_zero] at hlen
    rw [List.length_eq_zero] at hlen
    rw [hlen.1]
    exact GreedyRun.stop_creditors ds
  | succ fuel ih =>
    intro cs ds hinv hlen
    rw [settleLoop]
    by_cases hemp : (cs.isEmpty || ds.isEmpty) = true
    · rw [if_pos hemp]
      rw [Bool.or_eq_true] at hemp
      rcases hemp with h1 | h2
      · rw [List.isEmpty_iff.mp h1]
        exact GreedyRun.stop_creditors ds
      · rw [List.isEmpty_iff.mp h2]
        exact GreedyRun.stop_debtors cs
    · rw [if_neg hemp]
      rw [Bool.or_eq_true, not_or] at hemp
      have hcs : cs ≠ [] := fun hc => hemp.1 (by simp [hc])
      have hds : ds ≠ [] := fun hc => hemp.2 (by simp [hc])
      cases hsc : sortByAmountDesc cs with
      | nil =>
        have hp := sortByAmountDesc_perm cs
        rw [hsc] at hp
        exact absurd (List.length_eq_zero.mp hp.length_eq.symm) hcs
      | cons c crest =>
        cases hsd : sortByAmountDesc ds with
        | nil =>
          have hp := sortByAmountDesc_perm ds
          rw [hsd] at hp
          exact absurd (List.length_eq_zero.mp hp.length_eq.symm) hds
        | cons d drest =>
          simp only []
          have hpc : cs.Perm (c :: crest) := hsc ▸ (sortByAmountDesc_perm cs).symm
          have hpd : ds.Perm (d :: drest) := hsd ▸ (sortByAmountDesc_perm ds).symm
          have hcmem : c ∈ cs := hpc.symm.subset (List.mem_cons_self c crest)
          have hdmem : d ∈ ds := hpd.symm.subset (List.mem_cons_self d drest)
          have hc100 : 1/100 ≤ c.amount := hinv c (List.mem_append_left ds hcmem)
          have hd100 : 1/100 ≤ d.amount := hinv d (List.mem_append_right cs hdmem)
          have hpos : (0 : ℚ) < min d.amount c.amount :=
            lt_min (lt_of_lt_of_le (by norm_num) hd100)
              (lt_of_lt_of_le (by norm_num) hc100)
          refine GreedyRun.step cs ds c d crest drest (min d.amount c.amount) _
            hpc hpd (sortByAmountDesc_head_max cs c crest hsc)
            (sortByAmountDesc_head_max ds d drest hsd) rfl hpos ?_
          apply ih
          · intro x hx
            rcases List.mem_append.mp hx with h1 | h2
            · by_cases hdrop : c.amount - min d.amount c.amount < 1/100
              · rw [if_pos hdrop] at h1
                exact hinv x (List.mem_append_left ds
                  (hpc.symm.subset (List.mem_cons_of_mem c h1)))
              · rw [if_neg hdrop] at h1
                rcases List.mem_cons.mp h1 with h3 | h4
                · rw [h3]
                  exact le_of_not_lt hdrop
                · exact hinv x (List.mem_append_left ds
                    (hpc.symm.subset (List.mem_cons_of_mem c h4)))
            · by_cases hdrop : d.amount - min d.amount c.amount < 1/100
              · rw [if_pos hdrop] at h2
                exact hinv x (List.mem_append_right cs
                  (hpd.symm.subset (List.mem_cons_of_mem d h2)))
              · rw [if_neg hdrop] at h2
                rcases List.mem_cons.mp h2 with h3 | h4
                · rw [h3]
                  exact le_of_not_lt hdrop
                · exact hinv x (List.mem_append_right cs
                    (hpd.symm.subset (List.mem_cons_of_mem d h4)))
          · have hclen : crest.length = cs.length - 1 := by
              have := hpc.length_eq
              rw [this, List.length_cons]
              omega
            have hdlen : drest.length = ds.length - 1 := by
              have := hpd.length_eq
              rw [this, List.length_cons]
              omega
            have hcs1 : 1 ≤ cs.length := by
              cases cs with
              | nil => exact absurd rfl hcs
              | cons _ _ => simp
            have hds1 : 1 ≤ ds.length := by
              cases ds with
              | nil => exact absurd rfl hds
              | cons _ _ => simp
            rcases min_le_iff.mp (le_refl (min d.amount c.amount)) with hmle | hmle
            all_goals {
              rcases le_total d.amount c.amount with hdc | hdc
              · have hmin : min d.amount c.amount = d.amount := min_eq_left hdc
                have hdrop : d.amount - min d.amount c.amount < 1/100 := by
                  rw [hmin]
                  norm_num
                rw [if_pos hdrop]
                have hle1 : (if c.amount - min d.amount c.amount < 1/100 then crest
                    else ⟨c.name, c.amount - min d.amount c.amount⟩ :: crest).length ≤
                    cs.length := by
                  by_cases hdrop2 : c.amount - min d.amount c.amount < 1/100
                  · rw [if_pos hdrop2, hclen]
                    omega
                  · rw [if_neg hdrop2, List.length_cons, hclen]
                    omega
                rw [hdlen]
                omega
              · have hmin : min d.amount c.amount = c.amount := min_eq_right hdc
                have hdrop : c.amount - min d.amount c.amount < 1/100 := by
                  rw [hmin]
                  norm_num
                rw [if_pos hdrop]
                have hle1 : (if d.amount - min d.amount c.amount < 1/100 then drest
                    else ⟨d.name, d.amount - min d.amount c.amount⟩ :: drest).length ≤
                    ds.length := by
                  by_cases hdrop2 : d.amount - min d.amount c.amount < 1/100
                  · rw [if_pos hdrop2, hdlen]
                    omega
                  · rw [if_neg hdrop2, List.length_cons, hdlen]
                    omega
                rw [hclen]
                omega
            }


theorem mem_creditorsOf (balances : List (Name × ℚ)) (p : Party) :
    p ∈ creditorsOf balances ↔
      ∃ e ∈ balances, round2 e.2 > 1/100 ∧ p = ⟨e.1, round2 e.2⟩ := by
  unfold creditorsOf
  rw [List.mem_filterMap]
  simp only []
  constructor
  · rintro ⟨e, he, hsome⟩
    by_cases h : round2 e.2 > 1/100
    · rw [if_pos h] at hsome
      exact ⟨e, he, h, (Option.some.inj hsome).symm⟩
    · rw [if_neg h] at hsome
      cases hsome
  · rintro ⟨e, he, h, hp⟩
    exact ⟨e, he, by rw [if_pos h, hp]⟩

theorem mem_debtorsOf (balances : List (Name × ℚ)) (p : Party) :
    p ∈ debtorsOf balances ↔
      ∃ e ∈ balances, round2 e.2 < -(1/100) ∧ p = ⟨e.1, -(round2 e.2)⟩ := by
  unfold debtorsOf
  rw [List.mem_filterMap]
  simp only []
  constructor
  · rintro ⟨e, he, hsome⟩
    by_cases h : round2 e.2 < -(1/100)
    · rw [if_pos h] at hsome
      exact ⟨e, he, h, (Option.some.inj hsome).symm⟩
    · rw [if_neg h] at hsome
      cases hsome
  · rintro ⟨e, he, h, hp⟩
    exact ⟨e, he, by rw [if_pos h, hp]⟩

theorem creditorsOf_amount (balances : List (Name × ℚ)) :
    ∀ p ∈ creditorsOf balances, 1/100 ≤ p.amount := by
  intro p hp
  obtain ⟨e, _, h, hpe⟩ := (mem_creditorsOf balances p).mp hp
  rw [hpe]
  exact le_of_lt h

theorem debtorsOf_amount (balances : List (Name × ℚ)) :
    ∀ p ∈ debtorsOf balances, 1/100 ≤ p.amount := by
  intro p hp
  obtain ⟨e, _, h, hpe⟩ := (mem_debtorsOf balances p).mp hp
  rw [hpe]
  simp only []
  have : (1 : ℚ)/100 < -(round2 e.2) := by linarith
  exact le_of_lt this

unseal Rat.add Rat.mul Rat.inv Rat.sub Nat.gcd in
/-- C3: the settlement entry rounds each balance to two decimals and keeps as
creditors exactly the entries above 0.01 and as debtors exactly those below
-0.01 (others are excluded); and the emitted transaction list of both the
member-level and the subgroup-level minimizer is a run of the greedy relation:
while both sets are non-empty, a creditor and a debtor of maximal remaining
amount are paired, the transaction (from the debtor, to the creditor, amount
the minimum of the two remainders, strictly positive) is emitted in loop
order, both remainders are decremented and a party is dropped once its
remainder falls below 0.01. -/
theorem C3_greedy_settlement :
    (∀ (balances : List (Name × ℚ)) (p : Party),
      (p ∈ creditorsOf balances ↔
        ∃ e ∈ balances, round2 e.2 > 1/100 ∧ p = ⟨e.1, round2 e.2⟩) ∧
      (p ∈ debtorsOf balances ↔
        ∃ e ∈ balances, round2 e.2 < -(1/100) ∧ p = ⟨e.1, -(round2 e.2)⟩)) ∧
    (∀ balances : List (Name × ℚ),
      GreedyRun capitalize (creditorsOf balances) (debtorsOf balances)
        (generateMinimalMemberTransactions balances)) ∧
    (∀ groupBalances : List (Name × ℚ),
      GreedyRun formatGroup (creditorsOf groupBalances) (debtorsOf groupBalances)
        (generateMinimalSubgroupTransactions groupBalances)) := by
  refine ⟨fun balances p => ⟨mem_creditorsOf balances p, mem_debtorsOf balances p⟩, ?_, ?_⟩
  · intro balances
    refine settleLoop_greedy capitalize _ _ _ ?_ (le_refl _)
    intro x hx
    rcases List.mem_append.mp hx with h1 | h2
    · exact creditorsOf_amount balances x h1
    · exact debtorsOf_amount balances x h2
  · intro groupBalances
    refine settleLoop_greedy formatGroup _ _ _ ?_ (le_refl _)
    intro x hx
    rcases List.mem_append.mp hx with h1 | h2
    · exact creditorsOf_amount groupBalances x h1
    · exact debtorsOf_amount groupBalances x h2


/-!
Exact settlement accounting: per-name transfer totals of the loop.
-/

/-- Total amount of a transaction list. -/
def txsSum (txs : List Transaction) : ℚ :=
  (txs.map (fun tx => tx.2.2)).sum

/-- Total amount the named party pays (appears as the from component). -/
def paidSum (txs : List Transaction) (nm : String) : ℚ :=
  ((txs.filter (fun tx => tx.1 == nm)).map (fun tx => tx.2.2)).sum

/-- Total amount the named party receives (appears as the to component). -/
def recvSum (txs : List Transaction) (nm : String) : ℚ :=
  ((txs.filter (fun tx => tx.2.1 == nm)).map (fun tx => tx.2.2)).sum

/-- Total remaining amount of a party list. -/
def sumAmounts (l : List Party) : ℚ :=
  (l.map Party.amount).sum

/-- Total remaining amount of the parties rendered to a given display name. -/
def amountOfCap (fmt : String → String) (l : List Party) (nm : String) : ℚ :=
  ((l.filter (fun p => fmt p.name == nm)).map Party.amount).sum

/-- Whole numbers of cents: the values on which toFixed(2) is the identity. -/
def IsCents (q : ℚ) : Prop :=
  ∃ k : ℤ, q = k / 100

theorem IsCents.sub {a b : ℚ} (ha : IsCents a) (hb : IsCents b) : IsCents (a - b) := by
  obtain ⟨k, hk⟩ := ha
  obtain ⟨j, hj⟩ := hb
  exact ⟨k - j, by rw [hk, hj]; push_cast; ring⟩

theorem IsCents.min {a b : ℚ} (ha : IsCents a) (hb : IsCents b) : IsCents (min a b) := by
  rcases min_choice a b with h | h <;> rw [h]
  · exact ha
  · exact hb

theorem IsCents.eq_zero_of_small {a : ℚ} (ha : IsCents a) (h0 : 0 ≤ a)
    (h1 : a < 1/100) : a = 0 := by
  obtain ⟨k, hk⟩ := ha
  rw [hk] at h0 h1 ⊢
  have hk0 : 0 ≤ k := by
    by_contra hneg
    push_neg at hneg
    have : (k : ℚ) < 0 := by exact_mod_cast hneg
    nlinarith
  have hk1 : k < 1 := by
    by_contra hge
    push_neg at hge
    have : (1 : ℚ) ≤ (k : ℚ) := by exact_mod_cast hge
    nlinarith
  have : k = 0 := by omega
  rw [this]
  norm_num

theorem round2_cents {q : ℚ} (h : IsCents q) : round2 q = q := by
  obtain ⟨k, hk⟩ := h
  rw [hk, round2]
  have : (k : ℚ) / 100 * 100 = (k : ℚ) := by field_simp
  rw [this, round_intCast]

theorem recvSum_cons (f t : String) (amt : ℚ) (txs : List Transaction) (nm : String) :
    recvSum ((f, t, amt) :: txs) nm = (if t = nm then amt else 0) + recvSum txs nm := by
  by_cases h : t = nm
  · rw [if_pos h]
    unfold recvSum
    rw [List.filter_cons_of_pos (by simpa using h), List.map_cons, List.sum_cons]
  · rw [if_neg h]
    unfold recvSum
    rw [List.filter_cons_of_neg (by simpa using h)]
    ring

theorem paidSum_cons (f t : String) (amt : ℚ) (txs : List Transaction) (nm : String) :
    paidSum ((f, t, amt) :: txs) nm = (if f = nm then amt else 0) + paidSum txs nm := by
  by_cases h : f = nm
  · rw [if_pos h]
    unfold paidSum
    rw [List.filter_cons_of_pos (by simpa using h), List.map_cons, List.sum_cons]
  · rw [if_neg h]
    unfold paidSum
    rw [List.filter_cons_of_neg (by simpa using h)]
    ring

theorem amountOfCap_cons (fmt : String → String) (p : Party) (l : List Party) (nm : String) :
    amountOfCap fmt (p :: l) nm =
      (if fmt p.name = nm then p.amount else 0) + amountOfCap fmt l nm := by
  by_cases h : fmt p.name = nm
  · rw [if_pos h]
    unfold amountOfCap
    rw [List.filter_cons_of_pos (by simpa using h), List.map_cons, List.sum_cons]
  · rw [if_neg h]
    unfold amountOfCap
    rw [List.filter_cons_of_neg (by simpa using h)]
    ring

theorem amountOfCap_perm (fmt : String → String) {l1 l2 : List Party} (h : l1.Perm l2)
    (nm : String) : amountOfCap fmt l1 nm = amountOfCap fmt l2 nm := by
  unfold amountOfCap
  exact ((h.filter _).map Party.amount).sum_eq

theorem sumAmounts_perm {l1 l2 : List Party} (h : l1.Perm l2) :
    sumAmounts l1 = sumAmounts l2 := by
  unfold sumAmounts
  exact (h.map Party.amount).sum_eq

theorem sumAmounts_cons (p : Party) (l : List Party) :
    sumAmounts (p :: l) = p.amount + sumAmounts l := by
  unfold sumAmounts
  rw [List.map_cons, List.sum_cons]

theorem sumAmounts_pos_empty (l : List Party)
    (hpos : ∀ p ∈ l, 1/100 ≤ p.amount) (h0 : sumAmounts l = 0) : l = [] := by
  cases l with
  | nil => rfl
  | cons p rest =>
    exfalso
    have h1 : (0 : ℚ) < sumAmounts (p :: rest) := by
      rw [sumAmounts_cons]
      have hp : (0 : ℚ) < p.amount :=
        lt_of_lt_of_le (by norm_num) (hpos p (List.mem_cons_self p rest))
      have hr : (0 : ℚ) ≤ sumAmounts rest := by
        unfold sumAmounts
        apply List.sum_nonneg
        intro x hx
        rcases List.mem_map.mp hx with ⟨q, hq, hxq⟩
        rw [← hxq]
        exact le_trans (by norm_num)
          (hpos q (List.mem_cons_of_mem p hq))
      linarith
    rw [h0] at h1
    exact absurd h1 (by norm_num)


theorem txsSum_cons (f t : String) (amt : ℚ) (txs : List Transaction) :
    txsSum ((f, t, amt) :: txs) = amt + txsSum txs := by
  unfold txsSum
  rw [List.map_cons, List.sum_cons]

theorem settleLoop_exact (fmt : String → String) :
    ∀ (fuel : ℕ) (cs ds : List Party),
      (∀ p ∈ cs ++ ds, IsCents p.amount ∧ 1/100 ≤ p.amount) →
      sumAmounts cs = sumAmounts ds →
      cs.length + ds.length ≤ fuel →
      (∀ nm : String,
        recvSum (settleLoop fmt fuel cs ds) nm = amountOfCap fmt cs nm ∧
        paidSum (settleLoop fmt fuel cs ds) nm = amountOfCap fmt ds nm) ∧
      txsSum (settleLoop fmt fuel cs ds) = sumAmounts cs := by
  intro fuel
  induction fuel with
  | zero =>
    intro cs ds hinv hsum hlen
    rw [Nat.le_zero, Nat.add_eq_zero] at hlen
    obtain ⟨hc, hd⟩ := hlen
    rw [List.length_eq_zero] at hc
    rw [List.length_eq_zero] at hd
    subst hc
    subst hd
    exact ⟨fun nm => ⟨rfl, rfl⟩, rfl⟩
  | succ fuel ih =>
    intro cs ds hinv hsum hlen
    rw [settleLoop]
    by_cases hemp : (cs.isEmpty || ds.isEmpty) = true
    · rw [if_pos hemp]
      have hboth : cs = [] ∧ ds = [] := by
        rw [Bool.or_eq_true] at hemp
        rcases hemp with h1 | h2
        · have hc := List.isEmpty_iff.mp h1
          refine ⟨hc, ?_⟩
          apply sumAmounts_pos_empty ds
            (fun p hp => (hinv p (List.mem_append_right cs hp)).2)
          rw [← hsum, hc]
          rfl
        · have hd := List.isEmpty_iff.mp h2
          refine ⟨?_, hd⟩
          apply sumAmounts_pos_empty cs
            (fun p hp => (hinv p (List.mem_append_left ds hp)).2)
          rw [hsum, hd]
          rfl
      obtain ⟨hc, hd⟩ := hboth
      subst hc
      subst hd
      exact ⟨fun nm => ⟨rfl, rfl⟩, rfl⟩
    · rw [if_neg hemp]
      rw [Bool.or_eq_true, not_or] at hemp
      have hcs : cs ≠ [] := fun hc => hemp.1 (by simp [hc])
      have hds : ds ≠ [] := fun hc => hemp.2 (by simp [hc])
      cases hsc : sortByAmountDesc cs with
      | nil =>
        have hp := sortByAmountDesc_perm cs
        rw [hsc] at hp
        exact absurd (List.length_eq_zero.mp hp.length_eq.symm) hcs
      | cons c crest =>
        cases hsd : sortByAmountDesc ds with
        | nil =>
          have hp := sortByAmountDesc_perm ds
          rw [hsd] at hp
          exact absurd (List.length_eq_zero.mp hp.length_eq.symm) hds
        | cons d drest =>
          simp only []
          have hpc : cs.Perm (c :: crest) := hsc ▸ (sortByAmountDesc_perm cs).symm
          have hpd : ds.Perm (d :: drest) := hsd ▸ (sortByAmountDesc_perm ds).symm
          have hcmem : c ∈ cs := hpc.symm.subset (List.mem_cons_self c crest)
          have hdmem : d ∈ ds := hpd.symm.subset (List.mem_cons_self d drest)
          obtain ⟨hcC, hc100⟩ := hinv c (List.mem_append_left ds hcmem)
          obtain ⟨hdC, hd100⟩ := hinv d (List.mem_append_right cs hdmem)
          have htC : IsCents (min d.amount c.amount) := hdC.min hcC
          have htd : min d.amount c.amount ≤ d.amount := min_le_left _ _
          have htc : min d.amount c.amount ≤ c.amount := min_le_right _ _
          have hcsum : sumAmounts cs = c.amount + sumAmounts crest := by
            rw [sumAmounts_perm hpc, sumAmounts_cons]
          have hdsum : sumAmounts ds = d.amount + sumAmounts drest := by
            rw [sumAmounts_perm hpd, sumAmounts_cons]
          have hCs_sum : sumAmounts (if c.amount - min d.amount c.amount < 1/100 then crest
              else ⟨c.name, c.amount - min d.amount c.amount⟩ :: crest) =
              sumAmounts cs - min d.amount c.amount := by
            by_cases hr : c.amount - min d.amount c.amount < 1/100
            · rw [if_pos hr]
              have h0 : c.amount - min d.amount c.amount = 0 :=
                (hcC.sub htC).eq_zero_of_small (by linarith) hr
              linarith
            · rw [if_neg hr, sumAmounts_cons]
              simp only []
              linarith
          have hDs_sum : sumAmounts (if d.amount - min d.amount c.amount < 1/100 then drest
              else ⟨d.name, d.amount - min d.amount c.amount⟩ :: drest) =
              sumAmounts ds - min d.amount c.amount := by
            by_cases hr : d.amount - min d.amount c.amount < 1/100
            · rw [if_pos hr]
              have h0 : d.amount - min d.amount c.amount = 0 :=
                (hdC.sub htC).eq_zero_of_small (by linarith) hr
              linarith
            · rw [if_neg hr, sumAmounts_cons]
              simp only []
              linarith
          have hCs_aoc : ∀ nm : String,
              amountOfCap fmt (if c.amount - min d.amount c.amount < 1/100 then crest
                else ⟨c.name, c.amount - min d.amount c.amount⟩ :: crest) nm =
              amountOfCap fmt cs nm - (if fmt c.name = nm then min d.amount c.amount
                else 0) := by
            intro nm
            have hsplit : amountOfCap fmt cs nm =
                (if fmt c.name = nm then c.amount else 0) + amountOfCap fmt crest nm := by
              rw [amountOfCap_perm fmt hpc, amountOfCap_cons]
            by_cases hr : c.amount - min d.amount c.amount < 1/100
            · have h0 : c.amount - min d.amount c.amount = 0 :=
                (hcC.sub htC).eq_zero_of_small (by linarith) hr
              rw [if_pos hr, hsplit]
              by_cases hnm : fmt c.name = nm
              · rw [if_pos hnm, if_pos hnm]
                linarith
              · rw [if_neg hnm, if_neg hnm]
                ring
            · rw [if_neg hr, amountOfCap_cons, hsplit]
              simp only []
              by_cases hnm : fmt c.name = nm
              · rw [if_pos hnm, if_pos hnm, if_pos hnm]
                ring
              · rw [if_neg hnm, if_neg hnm, if_neg hnm]
                ring
          have hDs_aoc : ∀ nm : String,
              amountOfCap fmt (if d.amount - min d.amount c.amount < 1/100 then drest
                else ⟨d.name, d.amount - min d.amount c.amount⟩ :: drest) nm =
              amountOfCap fmt ds nm - (if fmt d.name = nm then min d.amount c.amount
                else 0) := by
            intro nm
            have hsplit : amountOfCap fmt ds nm =
                (if fmt d.name = nm then d.amount else 0) + amountOfCap fmt drest nm := by
              rw [amountOfCap_perm fmt hpd, amountOfCap_cons]
            by_cases hr : d.amount - min d.amount c.amount < 1/100
            · have h0 : d.amount - min d.amount c.amount = 0 :=
                (hdC.sub htC).eq_zero_of_small (by linarith) hr
              rw [if_pos hr, hsplit]
              by_cases hnm : fmt d.name = nm
              · rw [if_pos hnm, if_pos hnm]
                linarith
              · rw [if_neg hnm, if_neg hnm]
                ring
            · rw [if_neg hr, amountOfCap_cons, hsplit]
              simp only []
              by_cases hnm : fmt d.name = nm
              · rw [if_pos hnm, if_pos hnm, if_pos hnm]
                ring
              · rw [if_neg hnm, if_neg hnm, if_neg hnm]
                ring
          have hinv2 : ∀ p ∈ (if c.amount - min d.amount c.amount < 1/100 then crest
              else ⟨c.name, c.amount - min d.amount c.amount⟩ :: crest) ++
              (if d.amount - min d.amount c.amount < 1/100 then drest
              else ⟨d.name, d.amount - min d.amount c.amount⟩ :: drest),
              IsCents p.amount ∧ 1/100 ≤ p.amount := by
            intro x hx
            rcases List.mem_append.mp hx with h1 | h2
            · by_cases hr : c.amount - min d.amount c.amount < 1/100
              · rw [if_pos hr] at h1
                exact hinv x (List.mem_append_left ds
                  (hpc.symm.subset (List.mem_cons_of_mem c h1)))
              · rw [if_neg hr] at h1
                rcases List.mem_cons.mp h1 with h3 | h4
                · rw [h3]
                  exact ⟨hcC.sub htC, le_of_not_lt hr⟩
                · exact hinv x (List.mem_append_left ds
                    (hpc.symm.subset (List.mem_cons_of_mem c h4)))
            · by_cases hr : d.amount - min d.amount c.amount < 1/100
              · rw [if_pos hr] at h2
                exact hinv x (List.mem_append_right cs
                  (hpd.symm.subset (List.mem_cons_of_mem d h2)))
              · rw [if_neg hr] at h2
                rcases List.mem_cons.mp h2 with h3 | h4
                · rw [h3]
                  exact ⟨hdC.sub htC, le_of_not_lt hr⟩
                · exact hinv x (List.mem_append_right cs
                    (hpd.symm.subset (List.mem_cons_of_mem d h4)))
          have hsum2 : sumAmounts (if c.amount - min d.amount c.amount < 1/100 then crest
              else ⟨c.name, c.amount - min d.amount c.amount⟩ :: crest) =
              sumAmounts (if d.amount - min d.amount c.amount < 1/100 then drest
              else ⟨d.name, d.amount - min d.amount c.amount⟩ :: drest) := by
            rw [hCs_sum, hDs_sum, hsum]
          have hclen : crest.length = cs.length - 1 := by
            have h := hpc.length_eq
            rw [List.length_cons] at h
            omega
          have hdlen : drest.length = ds.length - 1 := by
            have h := hpd.length_eq
            rw [List.length_cons] at h
            omega
          have hcs1 : 1 ≤ cs.length := by
            cases cs with
            | nil => exact absurd rfl hcs
            | cons _ _ => simp
          have hds1 : 1 ≤ ds.length := by
            cases ds with
            | nil => exact absurd rfl hds
            | cons _ _ => simp
          have hlen2 : (if c.amount - min d.amount c.amount < 1/100 then crest
              else ⟨c.name, c.amount - min d.amount c.amount⟩ :: crest).length +
              (if d.amount - min d.amount c.amount < 1/100 then drest
              else ⟨d.name, d.amount - min d.amount c.amount⟩ :: drest).length ≤ fuel := by
            rcases le_total d.amount c.amount with hdc | hdc
            · have hmin : min d.amount c.amount = d.amount := min_eq_left hdc
              have hdrop : d.amount - min d.amount c.amount < 1/100 := by
                rw [hmin]
                norm_num
              rw [if_pos hdrop]
              by_cases hdrop2 : c.amount - min d.amount c.amount < 1/100
              · rw [if_pos hdrop2]
                omega
              · rw [if_neg hdrop2, List.length_cons]
                omega
            · have hmin : min d.amount c.amount = c.amount := min_eq_right hdc
              have hdrop : c.amount - min d.amount c.amount < 1/100 := by
                rw [hmin]
                norm_num
              rw [if_pos hdrop]
              by_cases hdrop2 : d.amount - min d.amount c.amount < 1/100
              · rw [if_pos hdrop2]
                omega
              · rw [if_neg hdrop2, List.length_cons]
                omega
          obtain ⟨IH1, IH2⟩ := ih _ _ hinv2 hsum2 hlen2
          constructor
          · intro nm
            constructor
            · rw [recvSum_cons, (IH1 nm).1, hCs_aoc nm]
              ring
            · rw [paidSum_cons, (IH1 nm).2, hDs_aoc nm]
              ring
          · rw [txsSum_cons, IH2, hCs_sum]
            ring


theorem IsCents.neg {a : ℚ} (ha : IsCents a) : IsCents (-a) := by
  obtain ⟨k, hk⟩ := ha
  exact ⟨-k, by rw [hk]; push_cast; ring⟩

theorem cents_pos_gt {q : ℚ} (hq : IsCents q) (h0 : 0 < q) (hne : q ≠ 1/100) :
    1/100 < q := by
  obtain ⟨k, hk⟩ := hq
  rw [hk] at h0 hne ⊢
  have hk1 : 1 ≤ k := by
    by_contra hlt
    push_neg at hlt
    have : k ≤ 0 := by omega
    have : (k : ℚ) ≤ 0 := by exact_mod_cast this
    nlinarith
  have hk2 : k ≠ 1 := by
    intro hc
    rw [hc] at hne
    norm_num at hne
  have hk3 : 2 ≤ k := by omega
  have : (2 : ℚ) ≤ (k : ℚ) := by exact_mod_cast hk3
  nlinarith

theorem cents_neg_lt {q : ℚ} (hq : IsCents q) (h0 : q < 0) (hne : q ≠ -(1/100)) :
    q < -(1/100) := by
  have h1 : 1/100 < -q :=
    cents_pos_gt hq.neg (by linarith) (fun hc => hne (by linarith))
  linarith

/-- Positive, negative and zero entries of a cent-valued balance map with no
value at exactly plus or minus 0.01 classify exactly into creditor, debtor and
excluded entries. -/
theorem entry_trichotomy {v : ℚ} (hc : IsCents v) (hno : v ≠ 1/100 ∧ v ≠ -(1/100)) :
    (0 < v ∧ round2 v > 1/100 ∧ ¬ round2 v < -(1/100)) ∨
    (v < 0 ∧ round2 v < -(1/100) ∧ ¬ round2 v > 1/100) ∨
    (v = 0 ∧ ¬ round2 v > 1/100 ∧ ¬ round2 v < -(1/100)) := by
  rw [round2_cents hc]
  rcases lt_trichotomy 0 v with h | h | h
  · exact Or.inl ⟨h, cents_pos_gt hc h hno.1, by
      have := cents_pos_gt hc h hno.1
      intro hcon
      linarith⟩
  · exact Or.inr (Or.inr ⟨h.symm, by rw [← h]; norm_num, by rw [← h]; norm_num⟩)
  · exact Or.inr (Or.inl ⟨h, cents_neg_lt hc h hno.2, by
      have := cents_neg_lt hc h hno.2
      intro hcon
      linarith⟩)

theorem creditorsOf_cons (e : Name × ℚ) (rest : List (Name × ℚ)) :
    creditorsOf (e :: rest) =
      (if round2 e.2 > 1/100 then [(⟨e.1, round2 e.2⟩ : Party)] else []) ++
        creditorsOf rest := by
  unfold creditorsOf
  rw [List.filterMap_cons]
  by_cases h : round2 e.2 > 1/100
  · simp only [if_pos h]
    rfl
  · simp only [if_neg h]
    rfl

theorem debtorsOf_cons (e : Name × ℚ) (rest : List (Name × ℚ)) :
    debtorsOf (e :: rest) =
      (if round2 e.2 < -(1/100) then [(⟨e.1, -(round2 e.2)⟩ : Party)] else []) ++
        debtorsOf rest := by
  unfold debtorsOf
  rw [List.filterMap_cons]
  by_cases h : round2 e.2 < -(1/100)
  · simp only [if_pos h]
    rfl
  · simp only [if_neg h]
    rfl

theorem sumAmounts_creditorsOf (balances : List (Name × ℚ))
    (hcents : ∀ e ∈ balances, IsCents e.2)
    (hno : ∀ e ∈ balances, e.2 ≠ 1/100 ∧ e.2 ≠ -(1/100)) :
    sumAmounts (creditorsOf balances) =
      alSum (balances.filter (fun e => decide (0 < e.2))) := by
  induction balances with
  | nil => rfl
  | cons e rest ih =>
    have ihr := ih (fun x hx => hcents x (List.mem_cons_of_mem e hx))
      (fun x hx => hno x (List.mem_cons_of_mem e hx))
    have hce := hcents e (List.mem_cons_self e rest)
    have hne := hno e (List.mem_cons_self e rest)
    rw [creditorsOf_cons]
    rcases entry_trichotomy hce hne with ⟨h0, h1, _⟩ | ⟨h0, _, h1⟩ | ⟨h0, h1, _⟩
    · rw [if_pos h1, List.filter_cons_of_pos (by simpa using h0),
        List.singleton_append, sumAmounts_cons, alSum_cons, ihr, round2_cents hce]
    · rw [if_neg h1, List.filter_cons_of_neg (by simp; linarith), List.nil_append, ihr]
    · rw [if_neg h1, List.filter_cons_of_neg (by simp [h0]), List.nil_append, ihr]

theorem sumAmounts_debtorsOf (balances : List (Name × ℚ))
    (hcents : ∀ e ∈ balances, IsCents e.2)
    (hno : ∀ e ∈ balances, e.2 ≠ 1/100 ∧ e.2 ≠ -(1/100)) :
    sumAmounts (debtorsOf balances) =
      - alSum (balances.filter (fun e => decide (e.2 < 0))) := by
  induction balances with
  | nil => rfl
  | cons e rest ih =>
    have ihr := ih (fun x hx => hcents x (List.mem_cons_of_mem e hx))
      (fun x hx => hno x (List.mem_cons_of_mem e hx))
    have hce := hcents e (List.mem_cons_self e rest)
    have hne := hno e (List.mem_cons_self e rest)
    rw [debtorsOf_cons]
    rcases entry_trichotomy hce hne with ⟨h0, _, h1⟩ | ⟨h0, h1, _⟩ | ⟨h0, _, h1⟩
    · rw [if_neg h1, List.filter_cons_of_neg (by simp; linarith), List.nil_append, ihr]
    · rw [if_pos h1, List.filter_cons_of_pos (by simpa using h0),
        List.singleton_append, sumAmounts_cons, alSum_cons, ihr, round2_cents hce]
      ring
    · rw [if_neg h1, List.filter_cons_of_neg (by simp [h0]), List.nil_append, ihr]

theorem alSum_pos_neg_split (balances : List (Name × ℚ)) :
    alSum (balances.filter (fun e => decide (0 < e.2))) +
      alSum (balances.filter (fun e => decide (e.2 < 0))) = alSum balances := by
  induction balances with
  | nil => simp [alSum]
  | cons e rest ih =>
    rcases lt_trichotomy 0 e.2 with h | h | h
    · rw [List.filter_cons_of_pos (by simpa using h),
        List.filter_cons_of_neg (by simp; linarith), alSum_cons, alSum_cons]
      linarith
    · rw [List.filter_cons_of_neg (by simp [← h]), List.filter_cons_of_neg (by simp [← h]),
        alSum_cons, ← h]
      linarith
    · rw [List.filter_cons_of_neg (by simp; linarith),
        List.filter_cons_of_pos (by simpa using h), alSum_cons, alSum_cons]
      linarith


theorem amountOfCap_creditorsOf_absent (fmt : String → String)
    (balances : List (Name × ℚ)) (nm : String)
    (h : ∀ e ∈ balances, fmt e.1 ≠ nm) :
    amountOfCap fmt (creditorsOf balances) nm = 0 := by
  induction balances with
  | nil => rfl
  | cons e rest ih =>
    have ihr := ih (fun x hx => h x (List.mem_cons_of_mem e hx))
    rw [creditorsOf_cons]
    by_cases hc : round2 e.2 > 1/100
    · rw [if_pos hc, List.singleton_append, amountOfCap_cons]
      rw [if_neg (h e (List.mem_cons_self e rest)), ihr]
      ring
    · rw [if_neg hc, List.nil_append, ihr]

theorem amountOfCap_debtorsOf_absent (fmt : String → String)
    (balances : List (Name × ℚ)) (nm : String)
    (h : ∀ e ∈ balances, fmt e.1 ≠ nm) :
    amountOfCap fmt (debtorsOf balances) nm = 0 := by
  induction balances with
  | nil => rfl
  | cons e rest ih =>
    have ihr := ih (fun x hx => h x (List.mem_cons_of_mem e hx))
    rw [debtorsOf_cons]
    by_cases hc : round2 e.2 < -(1/100)
    · rw [if_pos hc, List.singleton_append, amountOfCap_cons]
      rw [if_neg (h e (List.mem_cons_self e rest)), ihr]
      ring
    · rw [if_neg hc, List.nil_append, ihr]

theorem amountOfCap_creditorsOf (fmt : String → String) (balances : List (Name × ℚ))
    (e : Name × ℚ) (he : e ∈ balances)
    (hinj : (balances.map (fun x => fmt x.1)).Nodup) :
    amountOfCap fmt (creditorsOf balances) (fmt e.1) =
      if round2 e.2 > 1/100 then round2 e.2 else 0 := by
  induction balances with
  | nil => cases he
  | cons e0 rest ih =>
    rw [List.map_cons, List.nodup_cons] at hinj
    rw [creditorsOf_cons]
    rcases List.mem_cons.mp he with h1 | h2
    · have habs : ∀ x ∈ rest, fmt x.1 ≠ fmt e.1 := by
        intro x hx hc
        exact hinj.1 (h1 ▸ hc ▸ List.mem_map_of_mem (fun y => fmt y.1) hx)
      rw [h1]
      by_cases hc : round2 e0.2 > 1/100
      · rw [if_pos hc, if_pos hc, List.singleton_append, amountOfCap_cons]
        rw [if_pos rfl, amountOfCap_creditorsOf_absent fmt rest _
          (fun x hx => h1 ▸ habs x hx)]
        ring
      · rw [if_neg hc, if_neg hc, List.nil_append]
        exact amountOfCap_creditorsOf_absent fmt rest _ (fun x hx => h1 ▸ habs x hx)
    · have hne : fmt e0.1 ≠ fmt e.1 := by
        intro hc
        exact hinj.1 (hc ▸ List.mem_map_of_mem (fun y => fmt y.1) h2)
      by_cases hc : round2 e0.2 > 1/100
      · rw [if_pos hc, List.singleton_append, amountOfCap_cons]
        rw [if_neg hne, ih h2 hinj.2]
        ring
      · rw [if_neg hc, List.nil_append]
        exact ih h2 hinj.2

theorem amountOfCap_debtorsOf (fmt : String → String) (balances : List (Name × ℚ))
    (e : Name × ℚ) (he : e ∈ balances)
    (hinj : (balances.map (fun x => fmt x.1)).Nodup) :
    amountOfCap fmt (debtorsOf balances) (fmt e.1) =
      if round2 e.2 < -(1/100) then -(round2 e.2) else 0 := by
  induction balances with
  | nil => cases he
  | cons e0 rest ih =>
    rw [List.map_cons, List.nodup_cons] at hinj
    rw [debtorsOf_cons]
    rcases List.mem_cons.mp he with h1 | h2
    · have habs : ∀ x ∈ rest, fmt x.1 ≠ fmt e.1 := by
        intro x hx hc
        exact hinj.1 (h1 ▸ hc ▸ List.mem_map_of_mem (fun y => fmt y.1) hx)
      rw [h1]
      by_cases hc : round2 e0.2 < -(1/100)
      · rw [if_pos hc, if_pos hc, List.singleton_append, amountOfCap_cons]
        rw [if_pos rfl, amountOfCap_debtorsOf_absent fmt rest _
          (fun x hx => h1 ▸ habs x hx)]
        ring
      · rw [if_neg hc, if_neg hc, List.nil_append]
        exact amountOfCap_debtorsOf_absent fmt rest _ (fun x hx => h1 ▸ habs x hx)
    · have hne : fmt e0.1 ≠ fmt e.1 := by
        intro hc
        exact hinj.1 (hc ▸ List.mem_map_of_mem (fun y => fmt y.1) h2)
      by_cases hc : round2 e0.2 < -(1/100)
      · rw [if_pos hc, List.singleton_append, amountOfCap_cons]
        rw [if_neg hne, ih h2 hinj.2]
        ring
      · rw [if_neg hc, List.nil_append]
        exact ih h2 hinj.2


/-- C2 (amended): on a balance map whose values are whole cents, sum to
exactly 0 and avoid the two threshold values 0.01 and -0.01, and whose
capitalized names are distinct, the member-level minimizer settles exactly:
applying every transaction by adding its amount to the from-party (the debtor
pays off its debt) and subtracting it from the to-party (the creditor claim
is met) brings every balance to exactly 0, and the total transferred amount
equals the sum of the positive balances, which equals the sum of the absolute
values of the negative balances. -/
theorem C2_settlement_exact (balances : List (Name × ℚ))
    (hcents : ∀ e ∈ balances, IsCents e.2)
    (hsum : alSum balances = 0)
    (hno : ∀ e ∈ balances, e.2 ≠ 1/100 ∧ e.2 ≠ -(1/100))
    (hinj : (balances.map (fun e => capitalize e.1)).Nodup) :
    (∀ e ∈ balances,
      e.2 + paidSum (generateMinimalMemberTransactions balances) (capitalize e.1) -
        recvSum (generateMinimalMemberTransactions balances) (capitalize e.1) = 0) ∧
    txsSum (generateMinimalMemberTransactions balances) =
      alSum (balances.filter (fun e => decide (0 < e.2))) ∧
    txsSum (generateMinimalMemberTransactions balances) =
      - alSum (balances.filter (fun e => decide (e.2 < 0))) := by
  have hgen : generateMinimalMemberTransactions balances =
      settleLoop capitalize ((creditorsOf balances).length + (debtorsOf balances).length)
        (creditorsOf balances) (debtorsOf balances) := rfl
  have hinv : ∀ p ∈ creditorsOf balances ++ debtorsOf balances,
      IsCents p.amount ∧ 1/100 ≤ p.amount := by
    intro p hp
    rcases List.mem_append.mp hp with h1 | h2
    · obtain ⟨e, he, hgt, hpe⟩ := (mem_creditorsOf balances p).mp h1
      constructor
      · rw [hpe]
        simp only []
        rw [round2_cents (hcents e he)]
        exact hcents e he
      · rw [hpe]
        exact le_of_lt hgt
    · obtain ⟨e, he, hlt, hpe⟩ := (mem_debtorsOf balances p).mp h2
      constructor
      · rw [hpe]
        simp only []
        rw [round2_cents (hcents e he)]
        exact (hcents e he).neg
      · rw [hpe]
        simp only []
        linarith
  have hsum_eq : sumAmounts (creditorsOf balances) = sumAmounts (debtorsOf balances) := by
    rw [sumAmounts_creditorsOf balances hcents hno, sumAmounts_debtorsOf balances hcents hno]
    have hsplit := alSum_pos_neg_split balances
    rw [hsum] at hsplit
    linarith
  obtain ⟨hper, htot⟩ := settleLoop_exact capitalize _ _ _ hinv hsum_eq (le_refl _)
  rw [← hgen] at hper htot
  refine ⟨?_, ?_, ?_⟩
  · intro e he
    rw [(hper (capitalize e.1)).1, (hper (capitalize e.1)).2]
    rw [amountOfCap_creditorsOf capitalize balances e he hinj,
      amountOfCap_debtorsOf capitalize balances e he hinj]
    rcases entry_trichotomy (hcents e he) (hno e he) with
      ⟨h0, h1, h2⟩ | ⟨h0, h1, h2⟩ | ⟨h0, h1, h2⟩
    · rw [if_pos h1, if_neg h2, round2_cents (hcents e he)]
      ring
    · rw [if_neg h2, if_pos h1, round2_cents (hcents e he)]
      ring
    · rw [if_neg h1, if_neg h2, h0]
      ring
  · rw [htot, sumAmounts_creditorsOf balances hcents hno]
  · rw [htot, sumAmounts_creditorsOf balances hcents hno]
    have hsplit := alSum_pos_neg_split balances
    rw [hsum] at hsplit
    linarith

unseal Rat.add Rat.mul Rat.inv Rat.sub Nat.gcd in
/-- Witness for C2: on the two-member cent balances a = +2, b = -2 the
minimizer transfers 2 from B to A, zeroing both balances, and the total
transferred equals the positive and the absolute negative side. -/
theorem C2_settlement_exact_witness :
    (∀ e ∈ [(("a" : Name), (2 : ℚ)), ("b", -2)],
      e.2 + paidSum (generateMinimalMemberTransactions [("a", 2), ("b", -2)])
          (capitalize e.1) -
        recvSum (generateMinimalMemberTransactions [("a", 2), ("b", -2)])
          (capitalize e.1) = 0) ∧
    txsSum (generateMinimalMemberTransactions [("a", 2), ("b", -2)]) =
      alSum (([(("a" : Name), (2 : ℚ)), ("b", -2)]).filter (fun e => decide (0 < e.2))) :=
  ⟨(C2_settlement_exact [("a", 2), ("b", -2)]
      (by
        intro e he
        rcases List.mem_cons.mp he with h1 | h2
        · exact ⟨200, by rw [h1]; norm_num⟩
        · rcases List.mem_cons.mp h2 with h3 | h4
          · exact ⟨-200, by rw [h3]; norm_num⟩
          · cases h4)
      (by decide) (by decide) (by decide)).1,
   (C2_settlement_exact [("a", 2), ("b", -2)]
      (by
        intro e he
        rcases List.mem_cons.mp he with h1 | h2
        · exact ⟨200, by rw [h1]; norm_num⟩
        · rcases List.mem_cons.mp h2 with h3 | h4
          · exact ⟨-200, by rw [h3]; norm_num⟩
          · cases h4)
      (by decide) (by decide) (by decide)).2.1⟩

unseal Rat.add Rat.mul Rat.inv Rat.sub Nat.gcd in
/-- C2 counterexample, two independent defects of the claim as stated.
First, the stated application rule has the signs backwards: on balances
a = +1, b = -1 (sum 0) the minimizer returns the single transaction B to A of
1, and subtracting from the from-party while adding to the to-party drives a
to 1 + 1 = 2, which is not within 0.01 of zero. Second, even under the
correct application rule the epsilon bound fails: on the exactly conserving
balances 1.004, 1.004, 1.004, -3.012 the rounded creditors sum to 3.00 while
the debtor owes 3.01; the three emitted transfers of 1.00 leave the debtor at
-0.012, outside the 0.01 band. -/
theorem C2_settlement_counterexample :
    (generateMinimalMemberTransactions [("a", 1), ("b", -1)] = [("B", "A", 1)] ∧
     alSum [(("a" : Name), (1 : ℚ)), ("b", -1)] = 0 ∧
     (1 : ℚ) - paidSum [(("B" : String), ("A" : String), (1 : ℚ))] (capitalize "a") +
       recvSum [(("B" : String), ("A" : String), (1 : ℚ))] (capitalize "a") = 2 ∧
     ¬ ((2 : ℚ) ≤ 1/100)) ∧
    (generateMinimalMemberTransactions
        [("c1", 1004/1000), ("c2", 1004/1000), ("c3", 1004/1000), ("d", -(3012/1000))] =
      [("D", "C1", 1), ("D", "C2", 1), ("D", "C3", 1)] ∧
     alSum [(("c1" : Name), (1004/1000 : ℚ)), ("c2", 1004/1000), ("c3", 1004/1000),
       ("d", -(3012/1000))] = 0 ∧
     -(3012/1000 : ℚ) +
       paidSum [(("D" : String), ("C1" : String), (1 : ℚ)), ("D", "C2", 1), ("D", "C3", 1)]
         (capitalize "d") -
       recvSum [(("D" : String), ("C1" : String), (1 : ℚ)), ("D", "C2", 1), ("D", "C3", 1)]
         (capitalize "d") = -(12/1000) ∧
     ¬ (-(1/100) ≤ -(12/1000 : ℚ))) := by
  decide

end ExpenseSplitter
